import Mathlib

/-!
Verification of the graph-modeling-and-validation core of the
ontology_IAC_AWS_CDK repository.

The Python sources are shallowly embedded over lists of characters
(Python strings become List Char).  The two relevant modules are
src/lambda/rdf-generator/index.py (Graph Builder and Graph Serializer)
and src/lambda/ontology-validator/index.py (Graph Parser, Schema Model
and Validator).  Each definition below mirrors one Python function of
the source; Python string builtins (strip, rstrip, split, join,
startswith, replace) are modelled first.
-/

namespace OntologyCdk

/-! ## Python string builtins over List Char -/

/-- Python whitespace set used by str.split() and str.strip() with no
argument: space, tab, newline, carriage return, vertical tab, form feed. -/
def isPySpace (c : Char) : Bool :=
  c == ' ' || c == '\t' || c == '\n' || c == '\r' || c == '\x0b' || c == '\x0c'

/-- Python s.lstrip(chars): drop leading characters belonging to the set. -/
def pyLstrip (l : List Char) (set : List Char) : List Char :=
  l.dropWhile (fun c => set.contains c)

/-- Python s.rstrip(chars): drop trailing characters belonging to the set. -/
def pyRstrip (l : List Char) (set : List Char) : List Char :=
  (l.reverse.dropWhile (fun c => set.contains c)).reverse

/-- Python s.strip(chars): drop both leading and trailing characters of the set. -/
def pyStrip (l : List Char) (set : List Char) : List Char :=
  pyRstrip (pyLstrip l set) set

/-- Python s.strip() with no argument (whitespace). -/
def pyStripWs (l : List Char) : List Char :=
  ((l.dropWhile isPySpace).reverse.dropWhile isPySpace).reverse

/-- Worker for Python s.split() with no argument: accumulates the current
token in reverse in acc; whitespace runs separate tokens, empty tokens are
never produced. -/
def splitWsAux : List Char → List Char → List (List Char)
  | [], acc => if acc.isEmpty then [] else [acc.reverse]
  | c :: cs, acc =>
    if isPySpace c then
      if acc.isEmpty then splitWsAux cs [] else acc.reverse :: splitWsAux cs []
    else splitWsAux cs (c :: acc)

/-- Python s.split() with no argument. -/
def pySplitWs (l : List Char) : List (List Char) :=
  splitWsAux l []

/-- Python s.split(sep) for a one-character separator: keeps empty pieces,
and the split of the empty string is one empty piece. -/
def splitOnChar (sep : Char) : List Char → List (List Char)
  | [] => [[]]
  | c :: cs =>
    if c = sep then [] :: splitOnChar sep cs
    else
      match splitOnChar sep cs with
      | [] => [[c]]
      | h :: t => (c :: h) :: t

/-- Python sep.join(pieces). -/
def pyJoin (sep : List Char) : List (List Char) → List Char
  | [] => []
  | [x] => x
  | x :: y :: t => x ++ sep ++ pyJoin sep (y :: t)

/-- Python s.replace(old, new) for a one-character pattern old. -/
def replaceChar (old : Char) (new : List Char) (l : List Char) : List Char :=
  l.flatMap fun c => if c = old then new else [c]

/-- Digit-emitting worker for natStr; the first argument is fuel, always
sufficient because n / 10 shrinks while the fuel drops by one. -/
def natStrGo : Nat → Nat → List Char
  | 0, _ => []
  | fuel + 1, n =>
    if n < 10 then [Char.ofNat (48 + n)]
    else natStrGo fuel (n / 10) ++ [Char.ofNat (48 + n % 10)]

/-- Decimal digits of a natural number, as Python str(n) produces for n >= 0. -/
def natStr (n : Nat) : List Char :=
  natStrGo (n + 1) n

/-- Python str(i) for an integer. -/
def intStr (i : Int) : List Char :=
  if i < 0 then '-' :: natStr i.natAbs else natStr i.toNat

/-- Value of a list of decimal digits (the fragment of Python int() that the
validator exercises; on a non-numeric string the Python code would raise an
exception out of the whole validation call, a case no claim reaches). -/
def natOfDigits (l : List Char) : Nat :=
  l.foldl (fun a c => a * 10 + (c.toNat - 48)) 0

/-- Python int(s) on an optionally negated string of digits. -/
def pyInt (s : List Char) : Int :=
  match s with
  | '-' :: ds => -(natOfDigits ds : Int)
  | _ => (natOfDigits s : Int)

/-! ## src/lambda/rdf-generator/index.py : namespaces and helpers -/

def NAMESPACE_BASE : List Char := "http://graph-rag.example.com/".data

def NAMESPACE_DOC : List Char := NAMESPACE_BASE ++ "document/".data

def NAMESPACE_ENTITY : List Char := NAMESPACE_BASE ++ "entity/".data

def NAMESPACE_ONTO : List Char := NAMESPACE_BASE ++ "ontology/".data

/-- escape_literal (rdf-generator lines 472-481): the five sequential
str.replace calls, backslash first. -/
def escape_literal (text : List Char) : List Char :=
  replaceChar '\t' "\\t".data
    (replaceChar '\r' "\\r".data
      (replaceChar '\n' "\\n".data
        (replaceChar '"' "\\\"".data
          (replaceChar '\\' "\\\\".data text))))

/-- Python urllib.parse.quote keeps ASCII letters, digits, the four
always-safe punctuation characters and the default safe character slash. -/
def quoteSafe (c : Char) : Bool :=
  c.isAlphanum || c == '_' || c == '.' || c == '-' || c == '~' || c == '/'

/-- UTF-8 bytes of one character. -/
def utf8Bytes (c : Char) : List Nat :=
  let n := c.toNat
  if n < 128 then [n]
  else if n < 2048 then [192 + n / 64, 128 + n % 64]
  else if n < 65536 then [224 + n / 4096, 128 + (n / 64) % 64, 128 + n % 64]
  else [240 + n / 262144, 128 + (n / 4096) % 64, 128 + (n / 64) % 64, 128 + n % 64]

/-- Upper-case hexadecimal digit, as urllib percent-encoding emits. -/
def hexDig (n : Nat) : Char :=
  if n < 10 then Char.ofNat (48 + n) else Char.ofNat (55 + n)

/-- urllib.parse.quote(s) with the default safe set. -/
def pyQuote (s : List Char) : List Char :=
  s.flatMap fun c =>
    if quoteSafe c then [c]
    else (utf8Bytes c).flatMap fun b => ['%', hexDig (b / 16), hexDig (b % 16)]

/-! ## Graph Builder (rdf-generator lines 126-340) -/

/-- One RDF triple as the generator builds it: a dict with subject,
predicate and object strings. -/
structure Triple where
  subject : List Char
  predicate : List Char
  object : List Char
deriving DecidableEq, Repr

/-- A chunk record as consumed by generate_rdf_graph (chunk.get defaults
are folded into total fields). -/
structure Chunk where
  chunkId : Int
  text : List Char
  startPosition : Int
  byteLen : Int
deriving DecidableEq, Repr

/-- The three metadata fields generate_rdf_graph reads. A missing key is
none; Python truthiness makes the empty string behave like a missing key. -/
structure Metadata where
  keywords : Option (List Char)
  documentType : Option (List Char)
  author : Option (List Char)
deriving DecidableEq, Repr

/-- Python word character for the regex word boundary, restricted to the
ASCII inputs this pipeline handles. -/
def isWordChar (c : Char) : Bool :=
  c.isAlphanum || c == '_'

/-- Matches of the Python regex pattern (word boundary, one ASCII
upper-case letter, one or more ASCII lower-case letters, word boundary)
in scan order, as re.findall returns them.  The boolean argument records
whether the previous character was a word character (false at the start
of the text).  Greedy matching with a trailing word boundary means a
match is exactly a maximal lower-case run after an upper-case letter
that is preceded and followed by a non-word character or the text edge. -/
def findCapGo : Nat → List Char → Bool → List (List Char)
  | 0, _, _ => []
  | _ + 1, [], _ => []
  | fuel + 1, c :: rest, prevWord =>
    if !prevWord && c.isUpper then
      if !(rest.takeWhile Char.isLower).isEmpty &&
          ((rest.drop (rest.takeWhile Char.isLower).length).isEmpty ||
           !isWordChar ((rest.drop (rest.takeWhile Char.isLower).length).headD ' ')) then
        (c :: rest.takeWhile Char.isLower) ::
          findCapGo fuel (rest.drop (rest.takeWhile Char.isLower).length) true
      else
        findCapGo fuel rest (isWordChar c)
    else
      findCapGo fuel rest (isWordChar c)

/-- All regex matches in scan order; the fuel drops by one per step while
the text shrinks by at least one, so length-plus-one fuel never runs out. -/
def findCapWords (text : List Char) (prevWord : Bool) : List (List Char) :=
  findCapGo (text.length + 1) text prevWord

/-- The seen/entities loop of extract_entities_simple (lines 331-338). -/
def extractLoop : List (List Char) → List (List Char) →
    List (List Char × List Char) → List (List Char × List Char)
  | [], _, entities => entities
  | w :: ws, seen, entities =>
    if w ∉ seen ∧ w.length > 3 then
      if (entities ++ [(w, "Entity".data)]).length ≥ 5 then
        entities ++ [(w, "Entity".data)]
      else extractLoop ws (w :: seen) (entities ++ [(w, "Entity".data)])
    else extractLoop ws seen entities

/-- extract_entities_simple (rdf-generator lines 312-340). -/
def extract_entities_simple (text : List Char) : List (List Char × List Char) :=
  extractLoop (findCapWords text false) [] []

/-- Document node URI. -/
def docUri (document_id : List Char) : List Char :=
  NAMESPACE_DOC ++ document_id

/-- The keywords block of generate_rdf_graph (lines 185-209): split on
commas, strip each token, emit three triples per token. -/
def keywordTriples (doc_uri : List Char) (keywords : List Char) : List Triple :=
  (splitOnChar ',' keywords).flatMap fun kw0 =>
    let keyword := pyStripWs kw0
    let keyword_uri := NAMESPACE_ENTITY ++ pyQuote keyword
    [⟨keyword_uri, "rdf:type".data, NAMESPACE_ONTO ++ "Keyword".data⟩,
     ⟨keyword_uri, NAMESPACE_ONTO ++ "hasValue".data,
        '"' :: (escape_literal keyword ++ ['"'])⟩,
     ⟨doc_uri, NAMESPACE_ONTO ++ "hasKeyword".data, keyword_uri⟩]

/-- The per-chunk block of generate_rdf_graph (lines 241-307), including
the entity-mention triples of the chunk. -/
def chunkTriples (doc_uri : List Char) (chunk : Chunk) : List Triple :=
  let chunk_uri := doc_uri ++ "/chunk/".data ++ intStr chunk.chunkId
  [⟨chunk_uri, "rdf:type".data, NAMESPACE_ONTO ++ "TextChunk".data⟩,
   ⟨chunk_uri, NAMESPACE_ONTO ++ "hasChunkId".data,
      '"' :: (intStr chunk.chunkId ++ "\"^^xsd:integer".data)⟩,
   ⟨chunk_uri, NAMESPACE_ONTO ++ "hasText".data,
      '"' :: (escape_literal (chunk.text.take 500) ++ ['"'])⟩,
   ⟨chunk_uri, NAMESPACE_ONTO ++ "hasStartPosition".data,
      '"' :: (intStr chunk.startPosition ++ "\"^^xsd:integer".data)⟩,
   ⟨chunk_uri, NAMESPACE_ONTO ++ "hasLength".data,
      '"' :: (intStr chunk.byteLen ++ "\"^^xsd:integer".data)⟩,
   ⟨doc_uri, NAMESPACE_ONTO ++ "hasChunk".data, chunk_uri⟩]
  ++ (extract_entities_simple chunk.text).flatMap fun et =>
    let entity_uri := NAMESPACE_ENTITY ++ pyQuote et.1
    [⟨entity_uri, "rdf:type".data, NAMESPACE_ONTO ++ et.2⟩,
     ⟨entity_uri, NAMESPACE_ONTO ++ "hasValue".data,
        '"' :: (escape_literal et.1 ++ ['"'])⟩,
     ⟨chunk_uri, NAMESPACE_ONTO ++ "mentions".data, entity_uri⟩]

/-- generate_rdf_graph (rdf-generator lines 126-309).  The creation
timestamp datetime.utcnow().isoformat() is the explicit parameter now
(the spec itself flags the time-of-call as non-deterministic). -/
def generate_rdf_graph (document_id text_content : List Char)
    (chunks : List Chunk) (metadata : Metadata) (file_name : List Char)
    (now : List Char) : List Triple :=
  let doc_uri := docUri document_id
  [⟨doc_uri, "rdf:type".data, NAMESPACE_ONTO ++ "Document".data⟩,
   ⟨doc_uri, NAMESPACE_ONTO ++ "hasId".data, '"' :: (document_id ++ ['"'])⟩,
   ⟨doc_uri, NAMESPACE_ONTO ++ "hasFileName".data,
      '"' :: (escape_literal file_name ++ ['"'])⟩,
   ⟨doc_uri, NAMESPACE_ONTO ++ "hasTextLength".data,
      '"' :: (natStr text_content.length ++ "\"^^xsd:integer".data)⟩,
   ⟨doc_uri, NAMESPACE_ONTO ++ "createdAt".data,
      '"' :: (now ++ "\"^^xsd:dateTime".data)⟩]
  ++ (match metadata.keywords with
      | some ks => if ks.isEmpty then [] else keywordTriples doc_uri ks
      | none => [])
  ++ (match metadata.documentType with
      | some dt => if dt.isEmpty then [] else
          [⟨doc_uri, NAMESPACE_ONTO ++ "hasType".data,
             '"' :: (escape_literal dt ++ ['"'])⟩]
      | none => [])
  ++ (match metadata.author with
      | some a => if a.isEmpty then [] else
          let author_uri := NAMESPACE_ENTITY ++ pyQuote a
          [⟨author_uri, "rdf:type".data, NAMESPACE_ONTO ++ "Author".data⟩,
           ⟨author_uri, NAMESPACE_ONTO ++ "hasName".data,
              '"' :: (escape_literal a ++ ['"'])⟩,
           ⟨doc_uri, NAMESPACE_ONTO ++ "hasAuthor".data, author_uri⟩]
      | none => [])
  ++ chunks.flatMap (chunkTriples doc_uri)

/-! ## Graph Serializer, fully-qualified form (rdf-generator lines 416-469) -/

/-- format_uri_full (lines 454-469). -/
def format_uri_full (uri : List Char) : List Char :=
  if "rdf:".data.isPrefixOf uri then
    '<' :: ("http://www.w3.org/1999/02/22-rdf-syntax-ns#".data ++ uri.drop 4 ++ ['>'])
  else if "xsd:".data.isPrefixOf uri then
    '<' :: ("http://www.w3.org/2001/XMLSchema#".data ++ uri.drop 4 ++ ['>'])
  else if "doc:".data.isPrefixOf uri then
    '<' :: (NAMESPACE_DOC ++ uri.drop 4 ++ ['>'])
  else if "entity:".data.isPrefixOf uri then
    '<' :: (NAMESPACE_ENTITY ++ uri.drop 7 ++ ['>'])
  else if "onto:".data.isPrefixOf uri then
    '<' :: (NAMESPACE_ONTO ++ uri.drop 5 ++ ['>'])
  else '<' :: (uri ++ ['>'])

/-- The predicate term of an N-Triples line: kept verbatim when it already
starts with an angle bracket, expanded through format_uri_full otherwise. -/
def predToken (p : List Char) : List Char :=
  if "<".data.isPrefixOf p then p else format_uri_full p

/-- The object term of an N-Triples line: literals (leading double quote)
and bracketed terms pass through, anything else is bracketed. -/
def objToken (o : List Char) : List Char :=
  if "\"".data.isPrefixOf o then o
  else if "<".data.isPrefixOf o then o
  else '<' :: (o ++ ['>'])

/-- One serialized N-Triples line (without the newline). -/
def ntLine (t : Triple) : List Char :=
  ('<' :: (t.subject ++ ['>'])) ++ (' ' :: predToken t.predicate)
    ++ (' ' :: objToken t.object) ++ " .".data

/-- serialize_ntriples (rdf-generator lines 416-435). -/
def serialize_ntriples (triples : List Triple) : List Char :=
  pyJoin ['\n'] (triples.map ntLine)

/-! ## Graph Parser (ontology-validator lines 265-303) -/

/-- The two character sets parse_turtle_simple strips around terms. -/
def angleChars : List Char := ['<', '>']

def angleQuoteChars : List Char := ['<', '>', '"']

def spaceDotChars : List Char := [' ', '.']

/-- The fate of one input line inside parse_turtle_simple's loop: at most
one triple.  The loop keeps a current_subject variable but never assigns
it, so lines are independent. -/
def parseTurtleLine (line0 : List Char) : List (List Char × List Char × List Char) :=
  let line := pyStripWs line0
  if line.isEmpty then []
  else if "#".data.isPrefixOf line || "@".data.isPrefixOf line then []
  else
    match pySplitWs line with
    | p0 :: p1 :: r0 :: rs =>
      if "<".data.isPrefixOf p0 && "<".data.isPrefixOf p1 then
        [(pyStrip p0 angleChars, pyStrip p1 angleChars,
          pyStrip (pyRstrip (pyJoin [' '] (r0 :: rs)) spaceDotChars) angleQuoteChars)]
      else []
    | _ => []

/-- parse_turtle_simple (ontology-validator lines 265-303). -/
def parse_turtle_simple (rdf_content : List Char) :
    List (List Char × List Char × List Char) :=
  (splitOnChar '\n' rdf_content).flatMap parseTurtleLine

/-! ## Schema Model and Validator (ontology-validator lines 123-426) -/

/-- One row of the classes result set; validate_against_ontology reads
only the class binding. -/
structure ClassRow where
  classUri : List Char
  subClassOf : Option (List Char)
deriving DecidableEq, Repr

/-- One row of the properties result set.  A SPARQL OPTIONAL that did not
bind is an absent key, hence none. -/
structure PropRow where
  propertyUri : List Char
  domain : Option (List Char)
  rangeUri : Option (List Char)
deriving DecidableEq, Repr

/-- One row of the restrictions result set. -/
structure RestrRow where
  classUri : List Char
  propertyUri : List Char
  restrictionType : List Char
  value : List Char
deriving DecidableEq, Repr

/-- The Schema Model assembled by fetch_ontology_model. -/
structure OntologyModel where
  classes : List ClassRow
  properties : List PropRow
  restrictions : List RestrRow
deriving DecidableEq, Repr

/-- The empty model substituted on any fetch failure (lines 217-224). -/
def emptyModel : OntologyModel := ⟨[], [], []⟩

/-- The validator-internal per-subject record (lines 323-334). -/
structure Instance where
  types : List (List Char)
  properties : List (List Char × List (List Char))
deriving DecidableEq, Repr

/-- First-match association lookup, the reading side of a Python dict. -/
def lookupA {K V : Type} [DecidableEq K] : List (K × V) → K → Option V
  | [], _ => none
  | (k, v) :: rest, key => if k = key then some v else lookupA rest key

/-- Append one value to the list stored under a key, creating the key at
the end on first sight — Python dict insertion-order semantics. -/
def addToGroup {K V : Type} [DecidableEq K] :
    List (K × List V) → K → V → List (K × List V)
  | [], key, v => [(key, [v])]
  | (k, vs) :: rest, key, v =>
    if k = key then (k, vs ++ [v]) :: rest
    else (k, vs) :: addToGroup rest key v

/-- Apply an update to the instance stored under a subject, creating a
fresh empty instance at the end on first sight. -/
def updateInst : List (List Char × Instance) → List Char →
    (Instance → Instance) → List (List Char × Instance)
  | [], s, f => [(s, f ⟨[], []⟩)]
  | (k, v) :: rest, s, f =>
    if k = s then (k, f v) :: rest else (k, v) :: updateInst rest s f

def rdfSyntaxType : List Char :=
  "http://www.w3.org/1999/02/22-rdf-syntax-ns#type".data

/-- One step of the instance-grouping loop (lines 324-334). -/
def addTripleInst (g : List (List Char × Instance))
    (t : List Char × List Char × List Char) : List (List Char × Instance) :=
  if t.2.1 = rdfSyntaxType then
    updateInst g t.1 (fun inst => ⟨inst.types ++ [t.2.2], inst.properties⟩)
  else
    updateInst g t.1 (fun inst => ⟨inst.types, addToGroup inst.properties t.2.1 t.2.2⟩)

/-- Group the parsed triples into instances (lines 323-334). -/
def instancesOf (triples : List (List Char × List Char × List Char)) :
    List (List Char × Instance) :=
  triples.foldl addTripleInst []

/-- instance_data['properties'].get(prop_uri, []). -/
def propValsOf (inst : Instance) (p : List Char) : List (List Char) :=
  (lookupA inst.properties p).getD []

inductive IssueKind
  | undefined_class
  | domain_mismatch
  | cardinality_violation
  | min_cardinality_violation
deriving DecidableEq, Repr

/-- One violation or warning dict; keys a given kind does not set are none. -/
structure Issue where
  kind : IssueKind
  instanceUri : List Char
  classUri : Option (List Char) := none
  propertyUri : Option (List Char) := none
  expected : Option Int := none
  actual : Option Int := none
  min_expected : Option Int := none
  expected_domain : Option (List Char) := none
  actual_types : Option (List (List Char)) := none
  message : List Char
deriving DecidableEq, Repr

def ONTOLOGY_HASH : List Char := "http://graph-rag.example.com/ontology#".data

/-- Check 1, class membership (lines 336-349), for one instance. -/
def checkClassMembership (defined : List (List Char)) (iu : List Char)
    (inst : Instance) : List Issue :=
  inst.types.flatMap fun cu =>
    if ONTOLOGY_HASH.isPrefixOf cu ∧ cu ∉ defined ∧ defined ≠ [] then
      [{ kind := .undefined_class, instanceUri := iu, classUri := some cu,
         message := "Instance ".data ++ iu ++ " has type ".data ++ cu
           ++ " which is not defined in ontology".data }]
    else []

/-- Python dict(p['property'] -> p) built by comprehension: the last row
for a property wins. -/
def lookupLastProp (props : List PropRow) (pu : List Char) : Option PropRow :=
  (props.filter fun pr => pr.propertyUri = pu).getLast?

/-- Check 2, property domains (lines 351-371), for one instance.  Range
is fetched but never checked, exactly as in the source. -/
def checkDomains (props : List PropRow) (iu : List Char)
    (inst : Instance) : List Issue :=
  inst.properties.flatMap fun pv =>
    match lookupLastProp props pv.1 with
    | none => []
    | some pd =>
      match pd.domain with
      | some d =>
        if d ≠ [] ∧ d ∉ inst.types then
          [{ kind := .domain_mismatch, instanceUri := iu,
             propertyUri := some pv.1, expected_domain := some d,
             actual_types := some inst.types,
             message := "Property ".data ++ pv.1 ++ " expects domain ".data ++ d }]
        else []
      | none => []

/-- The issues one restriction row contributes for one instance: the
body of the innermost loop of check 3 (lines 385-415). -/
def restrIssues (iu : List Char) (inst : Instance) (r : RestrRow) : List Issue :=
  if r.restrictionType = "cardinality".data ∧ r.value = "1".data then
    (let cnt := (propValsOf inst r.propertyUri).length
     if cnt ≠ 1 then
      [{ kind := .cardinality_violation, instanceUri := iu,
         propertyUri := some r.propertyUri, expected := some 1,
         actual := some (cnt : Int),
         message := "Property ".data ++ r.propertyUri
           ++ " must have exactly 1 value, has ".data ++ natStr cnt }]
     else [])
  else if r.restrictionType = "minCardinality".data then
    (let minCard := pyInt r.value
     let cnt := (propValsOf inst r.propertyUri).length
     if (cnt : Int) < minCard then
      [{ kind := .min_cardinality_violation, instanceUri := iu,
         propertyUri := some r.propertyUri, min_expected := some minCard,
         actual := some (cnt : Int),
         message := "Property ".data ++ r.propertyUri
           ++ " must have at least ".data ++ intStr minCard
           ++ " values, has ".data ++ natStr cnt }]
     else [])
  else []

/-- Check 3, cardinality constraints (lines 373-415), for one instance,
against the restrictions-by-class index: a declared type absent from the
index contributes no iterations (the class_uri in restrictions_by_class
guard), a present one is visited row by row. -/
def checkCardinality (rbc : List (List Char × List RestrRow)) (iu : List Char)
    (inst : Instance) : List Issue :=
  inst.types.flatMap fun cu =>
    ((lookupA rbc cu).getD []).flatMap (restrIssues iu inst)

/-- The result dict of validate_against_ontology (lines 420-426). -/
structure ValidationResult where
  violations : List Issue
  warnings : List Issue
  checks_performed : List (List Char)
  instances_validated : Nat
  triples_validated : Nat
deriving DecidableEq, Repr

/-- validate_against_ontology (ontology-validator lines 306-426). -/
def validate_against_ontology (triples : List (List Char × List Char × List Char))
    (model : OntologyModel) : ValidationResult :=
  let instances := instancesOf triples
  let defined := model.classes.map (fun c => c.classUri)
  let warnings1 := instances.flatMap fun e => checkClassMembership defined e.1 e.2
  let warnings2 := instances.flatMap fun e => checkDomains model.properties e.1 e.2
  let rbc := model.restrictions.foldl (fun g r => addToGroup g r.classUri r) []
  let violations := instances.flatMap fun e => checkCardinality rbc e.1 e.2
  { violations := violations
    warnings := warnings1 ++ warnings2
    checks_performed := ["class_membership".data, "property_domains_ranges".data,
      "cardinality_constraints".data]
    instances_validated := instances.length
    triples_validated := triples.length }

/-! ## Outcome (handler lines 80-108) -/

inductive VStatus
  | PASSED
  | WARNING
  | FAILED
deriving DecidableEq, Repr

/-- The status computation of the handler (lines 80-88). -/
def determineStatus (violations warnings : List Issue) : VStatus :=
  if violations.length > 0 then .FAILED
  else if warnings.length > 0 then .WARNING
  else .PASSED

/-- The success flag of the handler result (line 107): true exactly when
the status is not FAILED. -/
def successFlag (violations warnings : List Issue) : Bool :=
  determineStatus violations warnings != .FAILED

/-! ## General list helpers -/

theorem flatMap_eq_nil_of {α β : Type} (l : List α) (f : α → List β)
    (h : ∀ x ∈ l, f x = []) : l.flatMap f = [] := by
  induction l with
  | nil => rfl
  | cons a t ih =>
    rw [List.flatMap_cons, h a (by simp), List.nil_append]
    exact ih fun x hx => h x (by simp [hx])

theorem length_flatMap_const {α β : Type} (l : List α) (f : α → List β) (n : Nat)
    (h : ∀ x ∈ l, (f x).length = n) : (l.flatMap f).length = n * l.length := by
  induction l with
  | nil => simp
  | cons a t ih =>
    rw [List.flatMap_cons, List.length_append, h a (by simp),
      ih fun x hx => h x (by simp [hx])]
    simp [Nat.mul_succ]
    omega

/-! ## Claim theorems -/

/-- C5: the validation status is FAILED exactly when the violations list
is non-empty, WARNING exactly when violations are empty and warnings
non-empty, PASSED exactly when both are empty, and the handler's success
flag is true exactly when the status is not FAILED (handler lines
80-108). -/
theorem statusOutcome (v w : List Issue) :
    (determineStatus v w = .FAILED ↔ v ≠ []) ∧
    (determineStatus v w = .WARNING ↔ (v = [] ∧ w ≠ [])) ∧
    (determineStatus v w = .PASSED ↔ (v = [] ∧ w = [])) ∧
    (successFlag v w = true ↔ determineStatus v w ≠ .FAILED) := by
  cases v <;> cases w <;> simp [determineStatus, successFlag, bne]

theorem checkClassMembership_defined_nil (iu : List Char) (inst : Instance) :
    checkClassMembership [] iu inst = [] := by
  unfold checkClassMembership
  exact flatMap_eq_nil_of _ _ (fun cu _ => by simp)

/-- C4: against the empty Schema Model every triple set validates with
zero violations, zero warnings and status PASSED (the class-membership
guard requires a non-empty class set, the domain check a property row,
the cardinality check a restriction row). -/
theorem emptySchemaPasses (ts : List (List Char × List Char × List Char)) :
    (validate_against_ontology ts emptyModel).violations = [] ∧
    (validate_against_ontology ts emptyModel).warnings = [] ∧
    determineStatus (validate_against_ontology ts emptyModel).violations
      (validate_against_ontology ts emptyModel).warnings = .PASSED := by
  have hv : (validate_against_ontology ts emptyModel).violations = [] := by
    unfold validate_against_ontology
    exact flatMap_eq_nil_of _ _ (fun e _ => by
      unfold checkCardinality
      exact flatMap_eq_nil_of _ _ (fun cu _ => by simp [emptyModel, lookupA]))
  have hw : (validate_against_ontology ts emptyModel).warnings = [] := by
    unfold validate_against_ontology
    simp only [emptyModel]
    rw [flatMap_eq_nil_of _ _ (fun e _ => by
        simpa [List.map_nil] using checkClassMembership_defined_nil e.1 e.2),
      flatMap_eq_nil_of _ _ (fun e _ => by
        unfold checkDomains
        exact flatMap_eq_nil_of _ _ (fun pv _ => by simp [lookupLastProp])),
      List.nil_append]
  exact ⟨hv, hw, by rw [hv, hw]; rfl⟩

/-- C6 (amended): the keyword block of the Graph Builder emits exactly
three triples per comma-split token (type, value and link per token),
i.e. 3 times the number of tokens, not 2 per token plus one shared link;
the block runs only when the keywords field is present and non-empty. -/
theorem keywordTripleCount (du ks : List Char) :
    (keywordTriples du ks).length = 3 * (splitOnChar ',' ks).length := by
  unfold keywordTriples
  exact length_flatMap_const _ _ 3 (fun kw0 _ => rfl)

/-- C6 counterexample: with the keywords field "alpha, beta" (two split
tokens) the builder emits 11 triples against 5 for no keywords — six
keyword-attributable triples, where the claim predicts 2 times 2 plus 1
equals 5. -/
theorem keywordCountCounterexample :
    (generate_rdf_graph "d".data "".data [] ⟨some "alpha, beta".data, none, none⟩
      "f".data "T".data).length = 11 ∧
    (generate_rdf_graph "d".data "".data [] ⟨none, none, none⟩
      "f".data "T".data).length = 5 ∧
    (splitOnChar ',' "alpha, beta".data).length = 2 := by
  refine ⟨?_, ?_, ?_⟩ <;> rfl

/-- C8 (amended): for every comma-split token of a non-empty keywords
field — empty tokens from trailing or doubled commas included — the
builder emits the three keyword triples for the whitespace-stripped
token, and nothing else: the block's length is exactly three per token.
An empty token yields a Keyword node at the bare entity-namespace URI
with an empty value literal. -/
theorem keywordEmptyTokenTriples (du ks kw0 : List Char)
    (h : kw0 ∈ splitOnChar ',' ks) :
    (⟨NAMESPACE_ENTITY ++ pyQuote (pyStripWs kw0), "rdf:type".data,
       NAMESPACE_ONTO ++ "Keyword".data⟩ : Triple) ∈ keywordTriples du ks ∧
    (⟨NAMESPACE_ENTITY ++ pyQuote (pyStripWs kw0),
       NAMESPACE_ONTO ++ "hasValue".data,
       '"' :: (escape_literal (pyStripWs kw0) ++ ['"'])⟩ : Triple)
      ∈ keywordTriples du ks ∧
    (⟨du, NAMESPACE_ONTO ++ "hasKeyword".data,
       NAMESPACE_ENTITY ++ pyQuote (pyStripWs kw0)⟩ : Triple)
      ∈ keywordTriples du ks ∧
    (keywordTriples du ks).length = 3 * (splitOnChar ',' ks).length := by
  refine ⟨?_, ?_, ?_, keywordTripleCount du ks⟩ <;>
    · unfold keywordTriples
      exact List.mem_flatMap.mpr ⟨kw0, h, by simp⟩

/-- C8 witness: the trailing comma in "alpha," produces the empty token,
whose three triples are present. -/
theorem keywordEmptyTokenTriplesWitness :
    (⟨NAMESPACE_ENTITY ++ pyQuote (pyStripWs []), "rdf:type".data,
       NAMESPACE_ONTO ++ "Keyword".data⟩ : Triple)
      ∈ keywordTriples "D".data "alpha,".data := by
  exact (keywordEmptyTokenTriples "D".data "alpha,".data [] (by decide)).1

/-- C8 counterexample: with keywords "alpha," the split yields the tokens
"alpha" and "", and the builder emits 6 triples — including a Keyword
type triple for the empty token at the bare entity namespace URI — where
the claim says the empty token yields none. -/
theorem keywordEmptyTokenCounterexample :
    (keywordTriples "D".data "alpha,".data).length = 6 ∧
    (⟨NAMESPACE_ENTITY ++ [], "rdf:type".data,
       NAMESPACE_ONTO ++ "Keyword".data⟩ : Triple)
      ∈ keywordTriples "D".data "alpha,".data := by
  exact ⟨rfl, by decide⟩

/-! ## Association-list lemmas for the validator's dictionaries -/

theorem lookupA_mem {K V : Type} [DecidableEq K] {g : List (K × V)} {k : K} {v : V}
    (h : lookupA g k = some v) : (k, v) ∈ g := by
  induction g with
  | nil => simp [lookupA] at h
  | cons e t ih =>
    obtain ⟨k', v'⟩ := e
    by_cases hk : k' = k
    · subst hk
      simp [lookupA] at h
      simp [h]
    · simp [lookupA, hk] at h
      simp [ih h]

theorem lookupA_addToGroup_same {K V : Type} [DecidableEq K]
    (g : List (K × List V)) (k : K) (v : V) :
    lookupA (addToGroup g k v) k = some ((lookupA g k).getD [] ++ [v]) := by
  induction g with
  | nil => simp [addToGroup, lookupA]
  | cons e t ih =>
    obtain ⟨k', vs⟩ := e
    by_cases hk : k' = k
    · subst hk
      simp [addToGroup, lookupA]
    · simp [addToGroup, lookupA, hk, ih]

theorem lookupA_addToGroup_other {K V : Type} [DecidableEq K]
    (g : List (K × List V)) (k k' : K) (v : V) (h : k' ≠ k) :
    lookupA (addToGroup g k v) k' = lookupA g k' := by
  induction g with
  | nil => simp [addToGroup, lookupA, Ne.symm h]
  | cons e t ih =>
    obtain ⟨k0, vs⟩ := e
    by_cases hk : k0 = k
    · subst hk
      simp [addToGroup, lookupA, Ne.symm h]
    · simp [addToGroup, lookupA, hk, ih]

/-- The restrictions-by-class index holds, per class, exactly the
restriction rows of that class in input order. -/
theorem lookupA_restrIndex (rs : List RestrRow) (acc : List (List Char × List RestrRow))
    (cu : List Char) :
    (lookupA (rs.foldl (fun g r => addToGroup g r.classUri r) acc) cu).getD [] =
      (lookupA acc cu).getD [] ++ rs.filter (fun r => r.classUri = cu) := by
  induction rs generalizing acc with
  | nil => simp
  | cons r t ih =>
    rw [List.foldl_cons, ih]
    by_cases hc : r.classUri = cu
    · rw [List.filter_cons_of_pos (by simp [hc])]
      subst hc
      rw [lookupA_addToGroup_same]
      simp
    · rw [List.filter_cons_of_neg (by simp [hc]),
        lookupA_addToGroup_other _ _ _ _ (fun e => hc e.symm)]

theorem updateInst_keys_mem {g : List (List Char × Instance)} {s : List Char}
    (f : Instance → Instance) (h : s ∈ g.map Prod.fst) :
    (updateInst g s f).map Prod.fst = g.map Prod.fst := by
  induction g with
  | nil => simp at h
  | cons e t ih =>
    obtain ⟨k, v⟩ := e
    by_cases hk : k = s
    · subst hk
      show (if k = k then (k, f v) :: t
        else (k, v) :: updateInst t k f).map Prod.fst = _
      rw [if_pos rfl]
      simp
    · simp only [List.map_cons, List.mem_cons] at h
      have h2 := h.resolve_left fun e => hk e.symm
      show (if k = s then (k, f v) :: t
        else (k, v) :: updateInst t s f).map Prod.fst = _
      rw [if_neg hk]
      simp [ih h2]

theorem updateInst_keys_fresh {g : List (List Char × Instance)} {s : List Char}
    (f : Instance → Instance) (h : s ∉ g.map Prod.fst) :
    (updateInst g s f).map Prod.fst = g.map Prod.fst ++ [s] := by
  induction g with
  | nil => simp [updateInst]
  | cons e t ih =>
    obtain ⟨k, v⟩ := e
    simp only [List.map_cons, List.mem_cons, not_or] at h
    simp [updateInst, Ne.symm h.1, ih h.2]

theorem updateInst_keys_nodup {g : List (List Char × Instance)} {s : List Char}
    (f : Instance → Instance) (h : (g.map Prod.fst).Nodup) :
    ((updateInst g s f).map Prod.fst).Nodup := by
  by_cases hs : s ∈ g.map Prod.fst
  · rw [updateInst_keys_mem f hs]; exact h
  · rw [updateInst_keys_fresh f hs]
    simp [List.nodup_append, h, hs]

/-- The subjects of the grouped instances are pairwise distinct. -/
theorem instancesOf_keys_nodup (ts : List (List Char × List Char × List Char)) :
    ((instancesOf ts).map Prod.fst).Nodup := by
  have main : ∀ (l : List (List Char × List Char × List Char))
      (acc : List (List Char × Instance)), (acc.map Prod.fst).Nodup →
      ((l.foldl addTripleInst acc).map Prod.fst).Nodup := by
    intro l
    induction l with
    | nil => intro acc h; simpa using h
    | cons t rest ih =>
      intro acc h
      rw [List.foldl_cons]
      refine ih _ ?_
      unfold addTripleInst
      split <;> exact updateInst_keys_nodup _ h
  exact main ts [] (by simp [instancesOf])

/-! ## Counting lemmas for check 3 -/

theorem countP_flatMap {α β : Type} (l : List α) (f : α → List β) (p : β → Bool) :
    ((l.flatMap f).countP p) = (l.map fun x => (f x).countP p).sum := by
  induction l with
  | nil => simp
  | cons a t ih => simp [List.flatMap_cons, List.countP_append, ih]

/-- The violation-counting predicate of claim C2: a cardinality violation
for one given instance and property. -/
def targetCard (i P : List Char) (x : Issue) : Bool :=
  decide (x.kind = .cardinality_violation ∧ x.instanceUri = i ∧ x.propertyUri = some P)

/-- How many exact-cardinality-one restriction rows the model carries for
one class and property. -/
def countCardRestrictions (model : OntologyModel) (cu P : List Char) : Nat :=
  (model.restrictions.filter fun r => r.classUri = cu ∧ r.propertyUri = P ∧
    r.restrictionType = "cardinality".data ∧ r.value = "1".data).length

theorem countP_restrIssues (iu P : List Char) (inst : Instance) (r : RestrRow) :
    (restrIssues iu inst r).countP (targetCard iu P) =
      if (r.propertyUri = P ∧ r.restrictionType = "cardinality".data ∧
          r.value = "1".data) ∧ (propValsOf inst P).length ≠ 1
      then 1 else 0 := by
  by_cases hP : r.propertyUri = P
  · subst hP
    unfold restrIssues
    split_ifs with h1 h2 h3 h4 <;>
      simp_all [targetCard, List.countP_cons]
  · unfold restrIssues
    split_ifs <;> simp_all [targetCard, List.countP_cons]

theorem every_restrIssue_tagged (iu : List Char) (inst : Instance) (r : RestrRow)
    (x : Issue) (hx : x ∈ restrIssues iu inst r) : x.instanceUri = iu := by
  unfold restrIssues at hx
  split_ifs at hx <;> simp at hx <;> (try obtain ⟨-, hx⟩ := hx) <;>
    subst hx <;> rfl

theorem every_checkCardinality_tagged (rbc : List (List Char × List RestrRow))
    (iu : List Char) (inst : Instance) (x : Issue)
    (hx : x ∈ checkCardinality rbc iu inst) : x.instanceUri = iu := by
  unfold checkCardinality at hx
  obtain ⟨cu, _, hx⟩ := List.mem_flatMap.mp hx
  obtain ⟨r, _, hx⟩ := List.mem_flatMap.mp hx
  exact every_restrIssue_tagged iu inst r x hx

/-- Exact count of check-3 cardinality violations for one instance and
property: zero when the instance carries exactly one value, otherwise one
per declared-type occurrence per matching restriction row. -/
theorem countP_checkCardinality (model : OntologyModel) (iu P : List Char)
    (inst : Instance) :
    (checkCardinality
        (model.restrictions.foldl (fun g r => addToGroup g r.classUri r) [])
        iu inst).countP (targetCard iu P) =
      if (propValsOf inst P).length = 1 then 0
      else (inst.types.map fun cu => countCardRestrictions model cu P).sum := by
  unfold checkCardinality
  rw [countP_flatMap]
  have hrows : ∀ rs : List RestrRow,
      (rs.flatMap (restrIssues iu inst)).countP (targetCard iu P) =
      if (propValsOf inst P).length = 1 then 0
      else rs.countP fun r => decide (r.propertyUri = P ∧
        r.restrictionType = "cardinality".data ∧ r.value = "1".data) := by
    intro rs
    induction rs with
    | nil => simp
    | cons r t ih =>
      rw [List.flatMap_cons, List.countP_append, ih, countP_restrIssues,
        List.countP_cons]
      by_cases hc : (propValsOf inst P).length = 1 <;>
        by_cases hA : (r.propertyUri = P ∧ r.restrictionType = "cardinality".data ∧
          r.value = "1".data) <;> simp [hc, hA, Nat.add_comm]
  have hbucket : ∀ cu : List Char,
      (((lookupA (model.restrictions.foldl
          (fun g r => addToGroup g r.classUri r) []) cu).getD []).flatMap
          (restrIssues iu inst)).countP (targetCard iu P) =
      if (propValsOf inst P).length = 1 then 0
      else countCardRestrictions model cu P := by
    intro cu
    have hfil := lookupA_restrIndex model.restrictions [] cu
    simp only [lookupA, Option.getD_none, List.nil_append] at hfil
    rw [hfil, hrows]
    by_cases hc : (propValsOf inst P).length = 1
    · simp [hc]
    · simp only [hc, if_neg hc]
      unfold countCardRestrictions
      rw [List.countP_filter, ← List.countP_eq_length_filter]
      apply List.countP_congr
      intro r _
      simp only [Bool.and_eq_true, decide_eq_true_eq]
      tauto
  simp only [hbucket]
  by_cases hc : (propValsOf inst P).length = 1
  · simp [hc]
  · simp [hc]

/-- Counting issues across all instances reduces to the one instance the
target predicate names, because subjects are pairwise distinct and every
issue is tagged with the subject whose iteration emitted it. -/
theorem countP_flatMap_single (g : List (List Char × Instance)) (i : List Char)
    (inst : Instance) (F : List Char → Instance → List Issue) (p : Issue → Bool)
    (hn : (g.map Prod.fst).Nodup) (hl : lookupA g i = some inst)
    (htag : ∀ k w x, (k, w) ∈ g → x ∈ F k w → x.instanceUri = k)
    (hp : ∀ x, p x = true → x.instanceUri = i) :
    ((g.flatMap fun e => F e.1 e.2).countP p) = (F i inst).countP p := by
  induction g with
  | nil => simp [lookupA] at hl
  | cons e t ih =>
    obtain ⟨k, w⟩ := e
    simp only [List.map_cons, List.nodup_cons] at hn
    rw [List.flatMap_cons, List.countP_append]
    by_cases hk : k = i
    · subst hk
      have hw : w = inst := by simpa [lookupA] using hl
      subst hw
      have tail0 : ((t.flatMap fun e => F e.1 e.2).countP p) = 0 := by
        apply List.countP_eq_zero.mpr
        intro x hx
        obtain ⟨e2, he2, hx2⟩ := List.mem_flatMap.mp hx
        intro hpx
        have htagged := htag e2.1 e2.2 x (by simp [he2]) hx2
        have he : e2.1 = k := htagged.symm.trans (hp x hpx)
        exact hn.1 (he ▸ List.mem_map_of_mem Prod.fst he2)
      rw [tail0]
      simp
    · have hcount0 : (F k w).countP p = 0 := by
        apply List.countP_eq_zero.mpr
        intro x hx
        intro hpx
        exact hk ((htag k w x (by simp) hx).symm.trans (hp x hpx))
      rw [hcount0, Nat.zero_add]
      refine ih hn.2 ?_ ?_
      · simpa [lookupA, hk] using hl
      · intro k2 w2 x hmem hx
        exact htag k2 w2 x (by simp [hmem]) hx

/-- C2 (amended): for an instance of a class carrying an exact
cardinality-one restriction on property P, provided the instance's
declared-type occurrences pair with exactly one matching restriction row
in total (the code emits one violation per declared-type occurrence per
matching row), the validator emits exactly one cardinality violation for
that instance and property when the value count differs from one, and
none when it is exactly one. -/
theorem cardinalityExactlyOneAmended
    (ts : List (List Char × List Char × List Char)) (model : OntologyModel)
    (i P : List Char) (inst : Instance)
    (hl : lookupA (instancesOf ts) i = some inst)
    (hone : (inst.types.map fun cu => countCardRestrictions model cu P).sum = 1) :
    ((validate_against_ontology ts model).violations).countP (targetCard i P) =
      if (propValsOf inst P).length = 1 then 0 else 1 := by
  have hv : (validate_against_ontology ts model).violations =
      (instancesOf ts).flatMap fun e => checkCardinality
        (model.restrictions.foldl (fun g r => addToGroup g r.classUri r) []) e.1 e.2 := rfl
  rw [hv, countP_flatMap_single (instancesOf ts) i inst _ _
    (instancesOf_keys_nodup ts) hl
    (fun k w x hm hx => every_checkCardinality_tagged _ k w x hx)
    (fun x hx => by simpa [targetCard] using (of_decide_eq_true hx).2.1),
    countP_checkCardinality, hone]

/-- C2 witness: a concrete instance of class C with a cardinality-one
restriction on property p and zero values for p receives exactly one
cardinality violation. -/
theorem cardinalityExactlyOneAmendedWitness :
    ((validate_against_ontology [("i".data, rdfSyntaxType, "C".data)]
        ⟨[], [], [⟨"C".data, "p".data, "cardinality".data, "1".data⟩]⟩).violations).countP
      (targetCard "i".data "p".data) = 1 := by
  have h := cardinalityExactlyOneAmended
    [("i".data, rdfSyntaxType, "C".data)]
    ⟨[], [], [⟨"C".data, "p".data, "cardinality".data, "1".data⟩]⟩
    "i".data "p".data ⟨["C".data], []⟩ (by decide) (by decide)
  simpa using h

/-- C2 counterexample: a subject declaring its type twice (two identical
rdf:type triples) against a schema with one cardinality-one restriction
on that class receives two cardinality violations for the same instance
and property, not exactly one as the claim states. -/
theorem cardinalityDuplicateTypeCounterexample :
    ((validate_against_ontology
        [("i".data, rdfSyntaxType, "C".data), ("i".data, rdfSyntaxType, "C".data)]
        ⟨[], [], [⟨"C".data, "p".data, "cardinality".data, "1".data⟩]⟩).violations).countP
      (targetCard "i".data "p".data) = 2 ∧
    lookupA (instancesOf
        [("i".data, rdfSyntaxType, "C".data), ("i".data, rdfSyntaxType, "C".data)])
      "i".data = some ⟨["C".data, "C".data], []⟩ := by
  exact ⟨by decide, by decide⟩

/-- C3: an instance carrying fewer values for P than a declared
minimum m yields a min-cardinality violation whose actual field is the
true value count and whose min_expected field is m. -/
theorem minCardinalityViolationFields
    (ts : List (List Char × List Char × List Char)) (model : OntologyModel)
    (i P C mval : List Char) (inst : Instance) (m : Nat)
    (hl : lookupA (instancesOf ts) i = some inst)
    (hC : C ∈ inst.types)
    (hr : (⟨C, P, "minCardinality".data, mval⟩ : RestrRow) ∈ model.restrictions)
    (hd1 : mval ≠ []) (hd2 : ∀ c ∈ mval, c.isDigit)
    (hm : natOfDigits mval = m)
    (hlt : (propValsOf inst P).length < m) :
    ∃ iss ∈ (validate_against_ontology ts model).violations,
      iss.kind = .min_cardinality_violation ∧ iss.instanceUri = i ∧
      iss.propertyUri = some P ∧
      iss.actual = some ((propValsOf inst P).length : Int) ∧
      iss.min_expected = some (m : Int) := by
  have hval : pyInt mval = (m : Int) := by
    cases mval with
    | nil => exact absurd rfl hd1
    | cons c rest =>
      have hc : c ≠ '-' := by
        intro e
        have := hd2 c (by simp)
        rw [e] at this
        simp [Char.isDigit] at this
      rw [← hm]
      show pyInt (c :: rest) = (natOfDigits (c :: rest) : Int)
      unfold pyInt
      split
      · rename_i ds heq
        injection heq with h1 h2
        exact absurd h1 hc
      · rfl
  refine ⟨{ kind := .min_cardinality_violation, instanceUri := i,
            propertyUri := some P, min_expected := some (m : Int),
            actual := some ((propValsOf inst P).length : Int),
            message := "Property ".data ++ P ++ " must have at least ".data
              ++ intStr (m : Int) ++ " values, has ".data
              ++ natStr (propValsOf inst P).length }, ?_, rfl, rfl, rfl, rfl, rfl⟩
  have hv : (validate_against_ontology ts model).violations =
      (instancesOf ts).flatMap fun e => checkCardinality
        (model.restrictions.foldl (fun g r => addToGroup g r.classUri r) []) e.1 e.2 := rfl
  rw [hv]
  refine List.mem_flatMap.mpr ⟨(i, inst), lookupA_mem hl, ?_⟩
  unfold checkCardinality
  refine List.mem_flatMap.mpr ⟨C, hC, ?_⟩
  have hfil := lookupA_restrIndex model.restrictions [] C
  simp only [lookupA, Option.getD_none, List.nil_append] at hfil
  rw [hfil]
  refine List.mem_flatMap.mpr ⟨⟨C, P, "minCardinality".data, mval⟩,
    List.mem_filter.mpr ⟨hr, by simp⟩, ?_⟩
  unfold restrIssues
  rw [if_neg (by simp), if_pos (by simp)]
  simp only [hval]
  rw [if_pos (by exact_mod_cast hlt)]
  simp

/-- C3 witness: an instance of class C with no value at all for p against
a minCardinality-2 restriction receives the violation with actual 0 and
min_expected 2. -/
theorem minCardinalityViolationFieldsWitness :
    ∃ iss ∈ (validate_against_ontology [("i".data, rdfSyntaxType, "C".data)]
        ⟨[], [], [⟨"C".data, "p".data, "minCardinality".data, "2".data⟩]⟩).violations,
      iss.kind = .min_cardinality_violation ∧ iss.instanceUri = "i".data ∧
      iss.propertyUri = some "p".data ∧
      iss.actual = some ((propValsOf ⟨["C".data], []⟩ "p".data).length : Int) ∧
      iss.min_expected = some ((2 : Nat) : Int) := by
  exact minCardinalityViolationFields
    [("i".data, rdfSyntaxType, "C".data)]
    ⟨[], [], [⟨"C".data, "p".data, "minCardinality".data, "2".data⟩]⟩
    "i".data "p".data "C".data "2".data ⟨["C".data], []⟩ 2
    (by decide) (by decide) (by decide) (by decide) (by decide) (by decide)
    (by decide)

/-! ## Entity extraction: claim C9 -/

/-- One upper-case ASCII letter followed by one or more lower-case ASCII
letters, occurring in the text and not extendable by a further lower-case
letter on the right. -/
def MaximalCapRun (w text : List Char) : Prop :=
  (∃ u ls, w = u :: ls ∧ u.isUpper ∧ ls ≠ [] ∧ ∀ c ∈ ls, c.isLower) ∧
  ∃ pre post, text = pre ++ w ++ post ∧ ∀ c, post.head? = some c → ¬ c.isLower = true

theorem takeWhile_append_drop (p : Char → Bool) (l : List Char) :
    l.takeWhile p ++ l.drop (l.takeWhile p).length = l := by
  induction l with
  | nil => rfl
  | cons a t ih =>
    by_cases h : p a <;> simp [List.takeWhile_cons, h, ih]

theorem isLower_isWordChar {c : Char} (h : c.isLower = true) :
    isWordChar c = true := by
  simp [isWordChar, Char.isAlphanum, Char.isAlpha, h]

theorem findCapGo_sound (fuel : Nat) :
    ∀ (cs : List Char) (prev : Bool) (w : List Char),
    w ∈ findCapGo fuel cs prev → MaximalCapRun w cs := by
  induction fuel with
  | zero => intro cs prev w h; simp [findCapGo] at h
  | succ n ih =>
    intro cs prev w h
    cases cs with
    | nil => simp [findCapGo] at h
    | cons c rest =>
      have hextend : ∀ b, w ∈ findCapGo n rest b → MaximalCapRun w (c :: rest) := by
        intro b hw
        obtain ⟨hshape, pre, post, heq, hpost⟩ := ih rest b w hw
        exact ⟨hshape, c :: pre, post, by simp [heq], hpost⟩
      by_cases hcond : (!prev && c.isUpper) = true
      · rw [show findCapGo (n + 1) (c :: rest) prev =
            (if !(rest.takeWhile Char.isLower).isEmpty &&
                ((rest.drop (rest.takeWhile Char.isLower).length).isEmpty ||
                 !isWordChar ((rest.drop
                   (rest.takeWhile Char.isLower).length).headD ' ')) then
              (c :: rest.takeWhile Char.isLower) ::
                findCapGo n (rest.drop (rest.takeWhile Char.isLower).length) true
            else findCapGo n rest (isWordChar c))
            from by rw [findCapGo, if_pos hcond]] at h
        by_cases hm : (!(rest.takeWhile Char.isLower).isEmpty &&
            ((rest.drop (rest.takeWhile Char.isLower).length).isEmpty ||
             !isWordChar ((rest.drop
               (rest.takeWhile Char.isLower).length).headD ' '))) = true
        · rw [if_pos hm] at h
          rcases List.mem_cons.mp h with hw | hw
          · subst hw
            have hup : c.isUpper = true := by
              revert hcond; cases c.isUpper <;> simp
            have hm2 := hm
            rw [Bool.and_eq_true] at hm2
            obtain ⟨hne, hbound⟩ := hm2
            refine ⟨⟨c, rest.takeWhile Char.isLower, rfl, hup, ?_, ?_⟩,
              [], rest.drop (rest.takeWhile Char.isLower).length,
              by simp [takeWhile_append_drop], ?_⟩
            · intro he; rw [he] at hne; simp at hne
            · intro x hx; exact List.mem_takeWhile_imp hx
            · intro d hd hlow
              rw [Bool.or_eq_true] at hbound
              rcases hbound with hemp | hword
              · rw [List.isEmpty_iff.mp hemp] at hd; simp at hd
              · cases hrest2 : rest.drop (rest.takeWhile Char.isLower).length with
                | nil => rw [hrest2] at hd; simp at hd
                | cons d0 t0 =>
                  rw [hrest2] at hd hword
                  simp at hd
                  subst hd
                  simp [isLower_isWordChar hlow] at hword
          · obtain ⟨hshape, pre, post, heq, hpost⟩ :=
              ih (rest.drop (rest.takeWhile Char.isLower).length) true w hw
            refine ⟨hshape, c :: (rest.takeWhile Char.isLower ++ pre), post, ?_, hpost⟩
            have hsplit := takeWhile_append_drop Char.isLower rest
            set tw := rest.takeWhile Char.isLower with htw
            set dr := rest.drop tw.length with hdr
            rw [← hsplit, heq]
            simp [List.append_assoc]
        · rw [if_neg hm] at h
          exact hextend _ h
      · rw [show findCapGo (n + 1) (c :: rest) prev =
            findCapGo n rest (isWordChar c)
            from by rw [findCapGo, if_neg hcond]] at h
        exact hextend _ h

theorem extractLoop_length (ws : List (List Char)) :
    ∀ (seen : List (List Char)) (acc : List (List Char × List Char)),
    acc.length < 5 → (extractLoop ws seen acc).length ≤ 5 := by
  induction ws with
  | nil => intro seen acc h; unfold extractLoop; omega
  | cons w t ih =>
    intro seen acc h
    unfold extractLoop
    split
    · split
      · simp only [List.length_append, List.length_singleton]
        omega
      · rename_i hge
        apply ih
        simp only [List.length_append, List.length_singleton] at hge ⊢
        omega
    · exact ih seen acc h

theorem extractLoop_mem (ws : List (List Char)) :
    ∀ (seen : List (List Char)) (acc : List (List Char × List Char))
    (p : List Char × List Char), p ∈ extractLoop ws seen acc →
    p ∈ acc ∨ (p.1 ∈ ws ∧ p.1.length > 3 ∧ p.2 = "Entity".data) := by
  induction ws with
  | nil =>
    intro seen acc p h
    unfold extractLoop at h
    exact Or.inl h
  | cons w t ih =>
    intro seen acc p h
    unfold extractLoop at h
    split at h
    · rename_i hcond
      split at h
      · rcases List.mem_append.mp h with h1 | h1
        · exact Or.inl h1
        · simp at h1
          subst h1
          exact Or.inr ⟨by simp, hcond.2, rfl⟩
      · rcases ih _ _ p h with h1 | h1
        · rcases List.mem_append.mp h1 with h2 | h2
          · exact Or.inl h2
          · simp at h2
            subst h2
            exact Or.inr ⟨by simp, hcond.2, rfl⟩
        · exact Or.inr ⟨by simp [h1.1], h1.2⟩
    · rcases ih _ _ p h with h1 | h1
      · exact Or.inl h1
      · exact Or.inr ⟨by simp [h1.1], h1.2⟩

theorem extractLoop_nodup (ws : List (List Char)) :
    ∀ (seen : List (List Char)) (acc : List (List Char × List Char)),
    (acc.map Prod.fst).Nodup → (∀ p ∈ acc, p.1 ∈ seen) →
    ((extractLoop ws seen acc).map Prod.fst).Nodup := by
  induction ws with
  | nil =>
    intro seen acc h1 _
    unfold extractLoop
    exact h1
  | cons w t ih =>
    intro seen acc h1 h2
    unfold extractLoop
    split
    · rename_i hcond
      have hnotin : w ∉ acc.map Prod.fst := by
        intro hmem
        obtain ⟨p, hp, he⟩ := List.mem_map.mp hmem
        exact hcond.1 (he ▸ h2 p hp)
      have hnodup2 : ((acc ++ [(w, "Entity".data)]).map Prod.fst).Nodup := by
        simp [List.nodup_append, h1, hnotin]
      split
      · exact hnodup2
      · refine ih _ _ hnodup2 ?_
        intro p hp
        rcases List.mem_append.mp hp with hp1 | hp1
        · exact List.mem_cons_of_mem _ (h2 p hp1)
        · simp at hp1
          subst hp1
          exact List.mem_cons_self _ _
    · exact ih _ _ h1 h2

theorem extractLoop_sublist (ws : List (List Char)) :
    ∀ (seen : List (List Char)) (acc : List (List Char × List Char)),
    ((extractLoop ws seen acc).map Prod.fst).Sublist (acc.map Prod.fst ++ ws) := by
  induction ws with
  | nil =>
    intro seen acc
    unfold extractLoop
    simp
  | cons w t ih =>
    intro seen acc
    unfold extractLoop
    split
    · split
      · simp only [List.map_append]
        refine List.Sublist.append (List.Sublist.refl _) ?_
        simp
      · refine (ih _ _).trans ?_
        simp only [List.map_append]
        rw [List.append_assoc]
        refine List.Sublist.append (List.Sublist.refl _) ?_
        simp
    · refine (ih _ _).trans ?_
      refine List.Sublist.append (List.Sublist.refl _) ?_
      exact (List.sublist_cons_self w t)

/-- C9: extract_entities_simple returns at most 5 pairwise-distinct
tokens, each typed Entity, each longer than 3 characters and each a
maximal capitalized run of the text, listed as a subsequence of the
regex-match order; on the text of the end-to-end example it returns
exactly Hello, Acme and Corp. -/
theorem entityExtractionSound :
    (∀ text : List Char,
      (extract_entities_simple text).length ≤ 5 ∧
      ((extract_entities_simple text).map Prod.fst).Nodup ∧
      ((extract_entities_simple text).map Prod.fst).Sublist
        (findCapWords text false) ∧
      (∀ p ∈ extract_entities_simple text,
        p.1.length > 3 ∧ p.2 = "Entity".data ∧ MaximalCapRun p.1 text)) ∧
    extract_entities_simple "Hello Acme Corp today".data =
      [("Hello".data, "Entity".data), ("Acme".data, "Entity".data),
       ("Corp".data, "Entity".data)] := by
  refine ⟨?_, by decide⟩
  intro text
  refine ⟨extractLoop_length _ _ _ (by simp),
    extractLoop_nodup _ _ _ (by simp) (by simp),
    by simpa using extractLoop_sublist (findCapWords text false) [] [], ?_⟩
  intro p hp
  rcases extractLoop_mem _ _ _ p hp with h | h
  · simp at h
  · exact ⟨h.2.1, h.2.2, findCapGo_sound _ _ _ _ h.1⟩

/-- C9 witness: the general part applied to the end-to-end text; the
extracted mention Hello is a maximal capitalized run. -/
theorem entityExtractionSoundWitness :
    ("Hello".data, "Entity".data) ∈
      extract_entities_simple "Hello Acme Corp today".data ∧
    MaximalCapRun "Hello".data "Hello Acme Corp today".data := by
  have h := entityExtractionSound
  have hmem : ("Hello".data, "Entity".data) ∈
      extract_entities_simple "Hello Acme Corp today".data := by
    rw [h.2]; simp
  exact ⟨hmem, ((h.1 "Hello Acme Corp today".data).2.2.2 _ hmem).2.2⟩

/-! ## Namespace separator mismatch: claim C10 -/

theorem isPrefixOf_append_self (a b : List Char) : a.isPrefixOf (a ++ b) = true := by
  induction a with
  | nil => simp
  | cons c t ih => simp [List.isPrefixOf_cons₂, ih]

theorem prefix_diverge (a : List Char) (x y : Char) (s t : List Char) (h : x ≠ y) :
    (a ++ x :: s).isPrefixOf (a ++ y :: t) = false := by
  induction a with
  | nil => simp [List.isPrefixOf_cons₂, h]
  | cons c cs ih => simp [List.isPrefixOf_cons₂, ih]

/-- The hash-separated ontology namespace the validator tests for is never
a prefix of a URI built on the slash-separated namespace the builder uses:
the two disagree at the character after "ontology". -/
theorem onto_hash_not_prefix (X : List Char) :
    ONTOLOGY_HASH.isPrefixOf (NAMESPACE_ONTO ++ X) = false := by
  have h1 : ONTOLOGY_HASH =
      "http://graph-rag.example.com/ontology".data ++ '#' :: [] := by decide
  have h2 : NAMESPACE_ONTO ++ X =
      "http://graph-rag.example.com/ontology".data ++ '/' :: X := by
    have h0 : NAMESPACE_ONTO =
        "http://graph-rag.example.com/ontology".data ++ ['/'] := by decide
    rw [h0, List.append_assoc]
    rfl
  rw [h1, h2]
  exact prefix_diverge _ _ _ _ _ (by decide)

/-- No ontology-namespace predicate equals the prefixed rdf:type string. -/
theorem onto_pred_ne_rdftype (X : List Char) :
    NAMESPACE_ONTO ++ X ≠ "rdf:type".data := by
  intro h
  have e1 := congrArg (List.take 4) h
  rw [List.take_append_of_le_length (by decide)] at e1
  exact absurd e1 (by decide)

theorem keywordTriples_type_object (du ks : List Char) (t : Triple)
    (ht : t ∈ keywordTriples du ks) (hp : t.predicate = "rdf:type".data) :
    t.object = NAMESPACE_ONTO ++ "Keyword".data := by
  obtain ⟨kw0, _, hmem⟩ := List.mem_flatMap.mp ht
  simp at hmem
  rcases hmem with h | h | h <;> subst h <;>
    first
      | rfl
      | exact absurd hp (onto_pred_ne_rdftype _)

theorem chunkTriples_type_object (du : List Char) (ch : Chunk) (t : Triple)
    (ht : t ∈ chunkTriples du ch) (hp : t.predicate = "rdf:type".data) :
    t.object = NAMESPACE_ONTO ++ "TextChunk".data ∨
    t.object = NAMESPACE_ONTO ++ "Entity".data := by
  rcases List.mem_append.mp ht with h | h
  · simp at h
    rcases h with h | h | h | h | h | h <;> subst h <;>
      first
        | exact Or.inl rfl
        | exact absurd hp (onto_pred_ne_rdftype _)
  · obtain ⟨et, het, hmem⟩ := List.mem_flatMap.mp h
    have hsnd : et.2 = "Entity".data := by
      rcases extractLoop_mem _ _ _ et het with h1 | h1
      · simp at h1
      · exact h1.2.2
    simp at hmem
    rcases hmem with h | h | h <;> subst h <;>
      first
        | exact Or.inr (by rw [show (⟨NAMESPACE_ENTITY ++ pyQuote et.1,
            "rdf:type".data, NAMESPACE_ONTO ++ et.2⟩ : Triple).object =
            NAMESPACE_ONTO ++ et.2 from rfl, hsnd])
        | exact absurd hp (onto_pred_ne_rdftype _)

theorem updateInst_mem {g : List (List Char × Instance)} {s j : List Char}
    {f : Instance → Instance} {inst : Instance}
    (h : (j, inst) ∈ updateInst g s f) :
    (j, inst) ∈ g ∨ (∃ v, (j, v) ∈ g ∧ j = s ∧ inst = f v) ∨
      ((j, inst) = (s, f ⟨[], []⟩)) := by
  induction g with
  | nil =>
    simp [updateInst] at h
    exact Or.inr (Or.inr (by simp [h]))
  | cons e t ih =>
    obtain ⟨k, v⟩ := e
    by_cases hk : k = s
    · subst hk
      rw [show updateInst ((k, v) :: t) k f = (k, f v) :: t from by
        rw [updateInst, if_pos rfl]] at h
      rcases List.mem_cons.mp h with h1 | h1
      · injection h1 with h2 h3
        exact Or.inr (Or.inl ⟨v, by simp [h2], h2, h3⟩)
      · exact Or.inl (List.mem_cons_of_mem _ h1)
    · rw [show updateInst ((k, v) :: t) s f = (k, v) :: updateInst t s f from by
        rw [updateInst, if_neg hk]] at h
      rcases List.mem_cons.mp h with h1 | h1
      · exact Or.inl (by simp [h1])
      · rcases ih h1 with h2 | ⟨w, hw, hjs, hi⟩ | h2
        · exact Or.inl (List.mem_cons_of_mem _ h2)
        · exact Or.inr (Or.inl ⟨w, List.mem_cons_of_mem _ hw, hjs, hi⟩)
        · exact Or.inr (Or.inr h2)

/-- Every entry of an instance's type list stems from a triple of the
input whose predicate is the full rdf-syntax type URI. -/
theorem foldl_types_invariant (Q : List Char → List Char → Prop) :
    ∀ (l : List (List Char × List Char × List Char))
      (acc : List (List Char × Instance)),
    (∀ j inst, (j, inst) ∈ acc → ∀ cu ∈ inst.types, Q j cu) →
    (∀ tr ∈ l, tr.2.1 = rdfSyntaxType → Q tr.1 tr.2.2) →
    ∀ j inst, (j, inst) ∈ l.foldl addTripleInst acc → ∀ cu ∈ inst.types, Q j cu := by
  intro l
  induction l with
  | nil =>
    intro acc hacc _ j inst hj cu hcu
    exact hacc j inst hj cu hcu
  | cons tr rest ih =>
    intro acc hacc hl j inst hj cu hcu
    rw [List.foldl_cons] at hj
    refine ih (addTripleInst acc tr) ?_ (fun t ht hp => hl t (by simp [ht]) hp)
      j inst hj cu hcu
    intro j2 inst2 hj2 cu2 hcu2
    unfold addTripleInst at hj2
    by_cases hp : tr.2.1 = rdfSyntaxType
    · rw [if_pos hp] at hj2
      rcases updateInst_mem hj2 with hmem | ⟨v, hv, hjs, hinst⟩ | heq
      · exact hacc _ _ hmem _ hcu2
      · subst hinst
        rcases List.mem_append.mp hcu2 with h1 | h1
        · exact hacc _ _ hv _ h1
        · simp at h1
          subst h1
          subst hjs
          exact hl tr (by simp) hp
      · injection heq with h1 h2
        subst h1
        subst h2
        rcases List.mem_append.mp hcu2 with h1 | h1
        · simp at h1
        · simp at h1
          subst h1
          exact hl tr (by simp) hp
    · rw [if_neg hp] at hj2
      rcases updateInst_mem hj2 with hmem | ⟨v, hv, hjs, hinst⟩ | heq
      · exact hacc _ _ hmem _ hcu2
      · subst hinst
        exact hacc _ _ hv _ hcu2
      · injection heq with h1 h2
        subst h1
        subst h2
        simp at hcu2

theorem instancesOf_types (ts : List (List Char × List Char × List Char))
    (j : List Char) (inst : Instance) (hj : (j, inst) ∈ instancesOf ts)
    (cu : List Char) (hcu : cu ∈ inst.types) : (j, rdfSyntaxType, cu) ∈ ts := by
  refine foldl_types_invariant (fun a b => (a, rdfSyntaxType, b) ∈ ts) ts []
    (by simp) ?_ j inst hj cu hcu
  intro tr htr hp
  obtain ⟨a, b, c⟩ := tr
  simp only at hp
  subst hp
  exact htr

theorem checkDomains_kind (props : List PropRow) (iu : List Char)
    (inst : Instance) (x : Issue) (hx : x ∈ checkDomains props iu inst) :
    x.kind = .domain_mismatch := by
  unfold checkDomains at hx
  obtain ⟨pv, _, hx⟩ := List.mem_flatMap.mp hx
  split at hx
  · simp at hx
  · split at hx
    · split_ifs at hx with h1
      · simp at hx
        subst hx
        rfl
      · simp at hx
    · simp at hx

/-- C10: no builder-produced type can ever trigger the undefined-class
warning.  First part: every rdf:type triple the Graph Builder emits has
an object under the slash-separated ontology namespace, of which the
hash-separated namespace the validator's class-membership check tests for
is never a prefix.  Second part: on any triple set whose full-URI type
triples all have objects outside the hash namespace, the validator emits
zero undefined_class warnings whatever the schema's class set. -/
theorem builderTypesNeverUndefinedClass :
    (∀ (document_id text_content : List Char) (chunks : List Chunk)
       (metadata : Metadata) (file_name now : List Char) (t : Triple),
       t ∈ generate_rdf_graph document_id text_content chunks metadata file_name now →
       t.predicate = "rdf:type".data →
       NAMESPACE_ONTO.isPrefixOf t.object = true ∧
       ONTOLOGY_HASH.isPrefixOf t.object = false) ∧
    (∀ (ts : List (List Char × List Char × List Char)) (model : OntologyModel),
       (∀ tr ∈ ts, tr.2.1 = rdfSyntaxType →
         ONTOLOGY_HASH.isPrefixOf tr.2.2 = false) →
       ((validate_against_ontology ts model).warnings.countP
         (fun x => decide (x.kind = IssueKind.undefined_class))) = 0) := by
  constructor
  · intro did txt chunks md fn now t ht hp
    suffices hobj : ∃ X, t.object = NAMESPACE_ONTO ++ X by
      obtain ⟨X, hX⟩ := hobj
      rw [hX]
      exact ⟨isPrefixOf_append_self _ _, onto_hash_not_prefix X⟩
    unfold generate_rdf_graph at ht
    rcases List.mem_append.mp ht with h | hchunks
    rcases List.mem_append.mp h with h | hau
    rcases List.mem_append.mp h with h | hdt
    rcases List.mem_append.mp h with hdoc | hkw
    · simp at hdoc
      rcases hdoc with h | h | h | h | h <;> subst h <;>
        first
          | exact ⟨"Document".data, rfl⟩
          | exact absurd hp (onto_pred_ne_rdftype _)
    · split at hkw
      · split_ifs at hkw with h1
        · simp at hkw
        · exact ⟨"Keyword".data, keywordTriples_type_object _ _ _ hkw hp⟩
      · simp at hkw
    · split at hdt
      · split_ifs at hdt with h1
        · simp at hdt
        · simp at hdt
          subst hdt
          exact absurd hp (onto_pred_ne_rdftype _)
      · simp at hdt
    · split at hau
      · split_ifs at hau with h1
        · simp at hau
        · simp at hau
          rcases hau with h | h | h <;> subst h <;>
            first
              | exact ⟨"Author".data, rfl⟩
              | exact absurd hp (onto_pred_ne_rdftype _)
      · simp at hau
    · obtain ⟨ch, _, hmem⟩ := List.mem_flatMap.mp hchunks
      rcases chunkTriples_type_object _ _ _ hmem hp with h | h
      · exact ⟨"TextChunk".data, h⟩
      · exact ⟨"Entity".data, h⟩
  · intro ts model hts
    have hw1 : ((instancesOf ts).flatMap fun e => checkClassMembership
        (model.classes.map fun c => c.classUri) e.1 e.2) = [] := by
      refine flatMap_eq_nil_of _ _ ?_
      intro e he
      refine flatMap_eq_nil_of _ _ ?_
      intro cu hcu
      have hin : (e.1, rdfSyntaxType, cu) ∈ ts :=
        instancesOf_types ts e.1 e.2 (by simpa using he) cu hcu
      have hfalse := hts _ hin rfl
      simp only at hfalse
      simp [hfalse]
    have hw2 : ∀ x ∈ ((instancesOf ts).flatMap fun e =>
        checkDomains model.properties e.1 e.2), x.kind = .domain_mismatch := by
      intro x hx
      obtain ⟨e, _, hx⟩ := List.mem_flatMap.mp hx
      exact checkDomains_kind _ _ _ _ hx
    show (((instancesOf ts).flatMap fun e => checkClassMembership
        (model.classes.map fun c => c.classUri) e.1 e.2) ++
      ((instancesOf ts).flatMap fun e =>
        checkDomains model.properties e.1 e.2)).countP _ = 0
    rw [hw1, List.nil_append]
    apply List.countP_eq_zero.mpr
    intro x hx
    simp [hw2 x hx]

set_option maxRecDepth 40000 in
/-- C10 witness: the first part applied to the Document type triple of a
concrete build, the second to the parsed serialization of that build
against a schema that defines only hash-namespace classes. -/
theorem builderTypesNeverUndefinedClassWitness :
    (NAMESPACE_ONTO.isPrefixOf (NAMESPACE_ONTO ++ "Document".data) = true ∧
     ONTOLOGY_HASH.isPrefixOf (NAMESPACE_ONTO ++ "Document".data) = false) ∧
    ((validate_against_ontology
        (parse_turtle_simple (serialize_ntriples
          (generate_rdf_graph "d".data "".data [] ⟨none, none, none⟩
            "f".data "T".data)))
        ⟨[⟨"http://graph-rag.example.com/ontology#Document".data, none⟩], [], []⟩).warnings.countP
      (fun x => decide (x.kind = IssueKind.undefined_class))) = 0 := by
  constructor
  · exact builderTypesNeverUndefinedClass.1 "d".data "".data []
      ⟨none, none, none⟩ "f".data "T".data
      ⟨docUri "d".data, "rdf:type".data, NAMESPACE_ONTO ++ "Document".data⟩
      (by decide) rfl
  · exact builderTypesNeverUndefinedClass.2 _ _ (by decide)

/-! ## Parser characterization: claim C7 -/

/-- The amended claim's description of one line's fate, written from its
words: after whitespace-stripping, a blank line or a line opening with a
hash or at sign yields nothing; a line of at least three
whitespace-separated tokens whose first two tokens each begin with an
opening angle bracket yields one triple — both URI positions stripped of
surrounding angle brackets, the object being the space-joined remainder
with trailing spaces and periods removed and then surrounding angle and
quote characters stripped; every other line yields nothing. -/
def specLineTriple (line : List Char) :
    Option (List Char × List Char × List Char) :=
  match pySplitWs (pyStripWs line) with
  | t1 :: t2 :: rest =>
    if pyStripWs line ≠ [] ∧ (pyStripWs line).head? ≠ some '#' ∧
        (pyStripWs line).head? ≠ some '@' ∧
        t1.head? = some '<' ∧ t2.head? = some '<' ∧ rest ≠ [] then
      some (pyStrip t1 angleChars, pyStrip t2 angleChars,
        pyStrip (pyRstrip (pyJoin [' '] rest) spaceDotChars) angleQuoteChars)
    else none
  | _ => none

/-- The original claim's per-line rule, which demands fully bracketed
first and second tokens (opening and closing angle bracket), not merely
tokens that begin with an opening bracket. -/
def claimLineTriple (line : List Char) :
    List (List Char × List Char × List Char) :=
  match pySplitWs (pyStripWs line) with
  | t1 :: t2 :: rest =>
    if pyStripWs line ≠ [] ∧ (pyStripWs line).head? ≠ some '#' ∧
        (pyStripWs line).head? ≠ some '@' ∧
        t1.head? = some '<' ∧ t1.getLast? = some '>' ∧
        t2.head? = some '<' ∧ t2.getLast? = some '>' ∧ rest ≠ [] then
      [(pyStrip t1 angleChars, pyStrip t2 angleChars,
        pyStrip (pyRstrip (pyJoin [' '] rest) spaceDotChars) angleQuoteChars)]
    else []
  | _ => []

/-- Parsing as the original claim describes it. -/
def parse_turtle_claimC7 (content : List Char) :
    List (List Char × List Char × List Char) :=
  (splitOnChar '\n' content).flatMap claimLineTriple

theorem singleton_isPrefixOf (c : Char) (l : List Char) :
    ((c :: []).isPrefixOf l = true) ↔ l.head? = some c := by
  cases l with
  | nil => simp
  | cons d t =>
    simp only [List.isPrefixOf_cons₂, List.isPrefixOf_nil_left, Bool.and_true,
      beq_iff_eq, List.head?_cons, Option.some.injEq]
    exact eq_comm

/-- C7 (amended): parse_turtle_simple processes its input strictly one
line at a time with no carried state; a line stripped to blank, or
opening with a hash or at sign, is dropped; a line of at least three
whitespace-separated tokens whose first two tokens each begin with an
opening angle bracket — a closing bracket is not required — yields
exactly one triple, with the joined remainder of the line as the object
stripped of trailing periods and surrounding angle and quote characters;
every other line, including the serializer's semicolon-continuation
lines, is silently dropped and never merged with a preceding subject. -/
theorem parserCharacterization (content : List Char) :
    parse_turtle_simple content =
      (splitOnChar '\n' content).flatMap fun l => (specLineTriple l).toList := by
  unfold parse_turtle_simple
  congr 1
  funext l
  unfold parseTurtleLine specLineTriple
  cases hs : pyStripWs l with
  | nil => simp [pySplitWs, splitWsAux]
  | cons c cs =>
    have hempty : ((c :: cs).isEmpty = true) = False := by simp
    by_cases hc1 : c = '#'
    · subst hc1
      rw [if_neg (by simp), if_pos (by simp [singleton_isPrefixOf])]
      cases hsplit : pySplitWs ('#' :: cs) with
      | nil => simp
      | cons t1 r1 => cases r1 <;> simp
    · by_cases hc2 : c = '@'
      · subst hc2
        rw [if_neg (by simp), if_pos (by simp [singleton_isPrefixOf])]
        cases hsplit : pySplitWs ('@' :: cs) with
        | nil => simp
        | cons t1 r1 => cases r1 <;> simp
      · rw [if_neg (by simp), if_neg (by
          simp only [Bool.or_eq_true, singleton_isPrefixOf, List.head?_cons,
            Option.some.injEq, not_or]
          exact ⟨hc1, hc2⟩)]
        cases hsplit : pySplitWs (c :: cs) with
        | nil => simp
        | cons t1 r1 =>
          cases r1 with
          | nil => simp
          | cons t2 rest =>
            cases rest with
            | nil => simp
            | cons r0 rs =>
              dsimp only
              by_cases hb : t1.head? = some '<' ∧ t2.head? = some '<'
              · rw [if_pos (by
                  have h1 : ("<".data.isPrefixOf t1) = true := by
                    rw [singleton_isPrefixOf]; exact hb.1
                  have h2 : ("<".data.isPrefixOf t2) = true := by
                    rw [singleton_isPrefixOf]; exact hb.2
                  simp [h1, h2]),
                  if_pos (by simp [hb.1, hb.2, hc1, hc2])]
                simp
              · rw [if_neg (by
                  intro hcontra
                  rw [Bool.and_eq_true, singleton_isPrefixOf,
                    singleton_isPrefixOf] at hcontra
                  exact hb hcontra),
                  if_neg (by
                  intro hcontra
                  exact hb ⟨hcontra.2.2.2.1, hcontra.2.2.2.2.1⟩)]
                simp

/-- C7 counterexample: on the line of three tokens whose first two begin
with an opening angle bracket but are not bracketed URIs, the code emits
the triple (a, b, c) while the claim's bracketed-URI rule drops the
line. -/
theorem parserBracketCounterexample :
    parse_turtle_simple "<a <b c .".data =
      [("a".data, "b".data, "c".data)] ∧
    parse_turtle_claimC7 "<a <b c .".data = [] := by
  exact ⟨by decide, by decide⟩

/-! ## Round trip through the fully-qualified serializer: claim C1 -/

theorem splitWsAux_sep (y : List Char) :
    ∀ (x acc : List Char),
    splitWsAux (x ++ ' ' :: y) acc = splitWsAux x acc ++ splitWsAux y [] := by
  intro x
  induction x with
  | nil =>
    intro acc
    show splitWsAux (' ' :: y) acc = _
    by_cases ha : acc.isEmpty
    · simp [splitWsAux, isPySpace, ha]
    · simp [splitWsAux, isPySpace, ha]
  | cons c cs ih =>
    intro acc
    show splitWsAux (c :: (cs ++ ' ' :: y)) acc = _
    by_cases hc : isPySpace c
    · by_cases ha : acc.isEmpty <;>
        simp [splitWsAux, hc, ha, ih]
    · simp [splitWsAux, hc, ih]

theorem splitWsAux_noWs (t : List Char) (h : ∀ c ∈ t, isPySpace c = false) :
    ∀ acc : List Char,
    splitWsAux t acc =
      if acc.reverse ++ t = [] then [] else [acc.reverse ++ t] := by
  induction t with
  | nil =>
    intro acc
    show (if acc.isEmpty then [] else [acc.reverse]) = _
    by_cases ha : acc.isEmpty
    · simp [ha, List.isEmpty_iff.mp ha]
    · have : acc ≠ [] := by simpa [List.isEmpty_iff] using ha
      simp [ha, this]
  | cons c cs ih =>
    intro acc
    have hc : isPySpace c = false := h c (by simp)
    show splitWsAux (c :: cs) acc = _
    rw [show splitWsAux (c :: cs) acc = splitWsAux cs (c :: acc) from by
      simp [splitWsAux, hc]]
    rw [ih (fun d hd => h d (by simp [hd])) (c :: acc)]
    simp

theorem pySplitWs_token (t : List Char) (hne : t ≠ [])
    (h : ∀ c ∈ t, isPySpace c = false) : pySplitWs t = [t] := by
  unfold pySplitWs
  rw [splitWsAux_noWs t h []]
  simp [hne]

theorem pySplitWs_sep (x y : List Char) :
    pySplitWs (x ++ ' ' :: y) = pySplitWs x ++ pySplitWs y := by
  unfold pySplitWs
  exact splitWsAux_sep y x []

theorem splitWsAux_tokens (l : List Char) :
    ∀ acc : List Char, (∀ c ∈ acc, isPySpace c = false) →
    ∀ tok ∈ splitWsAux l acc, tok ≠ [] ∧ ∀ c ∈ tok, isPySpace c = false := by
  induction l with
  | nil =>
    intro acc hacc tok htok
    revert htok
    show tok ∈ (if acc.isEmpty then [] else [acc.reverse]) → _
    by_cases ha : acc.isEmpty
    · simp [ha]
    · intro htok
      simp [ha] at htok
      subst htok
      refine ⟨by simpa [List.isEmpty_iff] using ha, ?_⟩
      intro c hc
      exact hacc c (by simpa using hc)
  | cons c cs ih =>
    intro acc hacc tok htok
    by_cases hc : isPySpace c
    · by_cases ha : acc.isEmpty
      · rw [show splitWsAux (c :: cs) acc = splitWsAux cs [] from by
          simp [splitWsAux, hc, ha]] at htok
        exact ih [] (by simp) tok htok
      · rw [show splitWsAux (c :: cs) acc = acc.reverse :: splitWsAux cs [] from by
          simp [splitWsAux, hc, ha]] at htok
        rcases List.mem_cons.mp htok with h1 | h1
        · subst h1
          refine ⟨by simpa [List.isEmpty_iff] using ha, ?_⟩
          intro d hd
          exact hacc d (by simpa using hd)
        · exact ih [] (by simp) tok h1
    · rw [show splitWsAux (c :: cs) acc = splitWsAux cs (c :: acc) from by
        simp [splitWsAux, hc]] at htok
      refine ih (c :: acc) ?_ tok htok
      intro d hd
      rcases List.mem_cons.mp hd with h1 | h1
      · subst h1; simpa using hc
      · exact hacc d h1

theorem pyJoin_mem {sep : List Char} {ls : List (List Char)} {c : Char}
    (h : c ∈ pyJoin sep ls) : c ∈ sep ∨ ∃ x ∈ ls, c ∈ x := by
  induction ls with
  | nil => simp [pyJoin] at h
  | cons x t ih =>
    cases t with
    | nil =>
      exact Or.inr ⟨x, by simp, by simpa [pyJoin] using h⟩
    | cons y t2 =>
      rw [show pyJoin sep (x :: y :: t2) = x ++ sep ++ pyJoin sep (y :: t2)
        from rfl] at h
      simp only [List.append_assoc, List.mem_append] at h
      rcases h with h1 | h1 | h1
      · exact Or.inr ⟨x, by simp, h1⟩
      · exact Or.inl h1
      · rcases ih h1 with h2 | ⟨z, hz, hcz⟩
        · exact Or.inl h2
        · exact Or.inr ⟨z, by simp [hz], hcz⟩

theorem pyJoin_append_last (sep : List Char) (xs : List (List Char))
    (z : List Char) (hne : xs ≠ []) :
    pyJoin sep (xs ++ [z]) = pyJoin sep xs ++ sep ++ z := by
  induction xs with
  | nil => exact absurd rfl hne
  | cons x t ih =>
    cases t with
    | nil => rfl
    | cons y t2 =>
      rw [show (x :: y :: t2) ++ [z] = x :: ((y :: t2) ++ [z]) from rfl,
        show pyJoin sep (x :: ((y :: t2) ++ [z])) =
          x ++ sep ++ pyJoin sep ((y :: t2) ++ [z]) from rfl,
        ih (by simp),
        show pyJoin sep (x :: y :: t2) = x ++ sep ++ pyJoin sep (y :: t2) from rfl]
      simp [List.append_assoc]

theorem splitOnChar_no_sep (sep : Char) (a : List Char) (h : sep ∉ a) :
    splitOnChar sep a = [a] := by
  induction a with
  | nil => rfl
  | cons c cs ih =>
    simp only [List.mem_cons, not_or] at h
    rw [show splitOnChar sep (c :: cs) =
      (if c = sep then [] :: splitOnChar sep cs
       else match splitOnChar sep cs with
            | [] => [[c]]
            | h :: t => (c :: h) :: t) from rfl,
      if_neg (fun e => h.1 e.symm), ih h.2]

theorem splitOnChar_sep (sep : Char) (a r : List Char) (h : sep ∉ a) :
    splitOnChar sep (a ++ sep :: r) = a :: splitOnChar sep r := by
  induction a with
  | nil => simp [splitOnChar]
  | cons c cs ih =>
    simp only [List.mem_cons, not_or] at h
    rw [List.cons_append,
      show splitOnChar sep (c :: (cs ++ sep :: r)) =
        (if c = sep then [] :: splitOnChar sep (cs ++ sep :: r)
         else match splitOnChar sep (cs ++ sep :: r) with
              | [] => [[c]]
              | h :: t => (c :: h) :: t) from rfl,
      if_neg (fun e => h.1 e.symm), ih h.2]

theorem splitOnChar_join (sep : Char) (ls : List (List Char)) (hne : ls ≠ [])
    (h : ∀ l ∈ ls, sep ∉ l) :
    splitOnChar sep (pyJoin [sep] ls) = ls := by
  induction ls with
  | nil => exact absurd rfl hne
  | cons x t ih =>
    cases t with
    | nil =>
      show splitOnChar sep x = [x]
      exact splitOnChar_no_sep sep x (h x (by simp))
    | cons y t2 =>
      rw [show pyJoin [sep] (x :: y :: t2) = x ++ sep :: pyJoin [sep] (y :: t2)
        from by simp [pyJoin],
        splitOnChar_sep sep x _ (h x (by simp)),
        ih (by simp) (fun l hl => h l (by simp [hl]))]

theorem dropWhile_eq_self_of_head (p : Char → Bool) (l : List Char)
    (h : ∀ c, l.head? = some c → p c = false) : l.dropWhile p = l := by
  cases l with
  | nil => rfl
  | cons c cs => simp [List.dropWhile_cons, h c rfl]

theorem pyStripWs_eq_self (l : List Char)
    (h1 : ∀ c, l.head? = some c → isPySpace c = false)
    (h2 : ∀ c, l.getLast? = some c → isPySpace c = false) :
    pyStripWs l = l := by
  unfold pyStripWs
  rw [dropWhile_eq_self_of_head _ _ h1,
    dropWhile_eq_self_of_head _ _ (fun c hc => h2 c (by
      rwa [List.head?_reverse] at hc))]
  simp

theorem pyStrip_angle (s : List Char) (hne : s ≠ [])
    (hh : ∀ c, s.head? = some c → angleChars.contains c = false)
    (hl : ∀ c, s.getLast? = some c → angleChars.contains c = false) :
    pyStrip ('<' :: (s ++ ['>'])) angleChars = s := by
  have step1 : pyLstrip ('<' :: (s ++ ['>'])) angleChars = s ++ ['>'] := by
    unfold pyLstrip
    rw [List.dropWhile_cons, if_pos (by decide)]
    refine dropWhile_eq_self_of_head _ _ ?_
    intro c hc
    cases s with
    | nil => exact absurd rfl hne
    | cons a t =>
      rw [List.cons_append, List.head?_cons] at hc
      injection hc with hac
      subst hac
      exact hh a rfl
  unfold pyStrip
  rw [step1]
  unfold pyRstrip
  rw [show (s ++ ['>']).reverse = '>' :: s.reverse from by simp,
    List.dropWhile_cons, if_pos (by decide),
    dropWhile_eq_self_of_head _ _ (fun c hc => hl c (by
      rwa [List.head?_reverse] at hc))]
  simp

theorem pyRstrip_append_mem (x : List Char) (c : Char) (set : List Char)
    (h : set.contains c = true) :
    pyRstrip (x ++ [c]) set = pyRstrip x set := by
  unfold pyRstrip
  rw [show (x ++ [c]).reverse = c :: x.reverse from by simp,
    List.dropWhile_cons,
    if_pos (show (fun d => set.contains d) c = true from h)]

/-- A serialized term survives tokenization and reassembly exactly when
it holds no whitespace beyond single interior spaces and does not end in
a space or period; every triple component the repository's own builder
produces from whitespace-free input satisfies this. -/
def wfTriple (t : Triple) : Prop :=
  t.subject ≠ [] ∧ (∀ c ∈ t.subject, isPySpace c = false) ∧
  angleChars.contains (t.subject.headD ' ') = false ∧
  angleChars.contains (t.subject.getLastD ' ') = false ∧
  (∀ c ∈ predToken t.predicate, isPySpace c = false) ∧
  objToken t.object ≠ [] ∧
  pyJoin [' '] (pySplitWs (objToken t.object)) = objToken t.object ∧
  pyRstrip (objToken t.object) spaceDotChars = objToken t.object

instance (t : Triple) : Decidable (wfTriple t) := by
  unfold wfTriple
  infer_instance

theorem predToken_head (p : List Char) : (predToken p).head? = some '<' := by
  unfold predToken
  split_ifs with h1
  · exact (singleton_isPrefixOf '<' p).mp h1
  · unfold format_uri_full
    split_ifs <;> rfl

theorem predToken_ne_nil (p : List Char) : predToken p ≠ [] := by
  intro e
  have := predToken_head p
  rw [e] at this
  simp at this

/-- The per-line half of the round trip: parsing one serialized
N-Triples line of a well-formed triple recovers the subject exactly, the
predicate as the angle-stripped full expansion, and the object with
surrounding angle and quote characters stripped. -/
theorem parse_ntLine (t : Triple) (h : wfTriple t) :
    parseTurtleLine (ntLine t) =
      [(t.subject, pyStrip (predToken t.predicate) angleChars,
        pyStrip (objToken t.object) angleQuoteChars)] := by
  obtain ⟨hsne, hs2, hs3, hs4, hp1, hone, ho2, ho3⟩ := h
  set A := '<' :: (t.subject ++ ['>']) with hA
  set P := predToken t.predicate with hP
  set O := objToken t.object with hO
  have hAne : A ≠ [] := by simp [hA]
  have hAno : ∀ c ∈ A, isPySpace c = false := by
    intro c hc
    rcases List.mem_cons.mp hc with h1 | h1
    · subst h1; decide
    · rcases List.mem_append.mp h1 with h2 | h2
      · exact hs2 c h2
      · simp at h2; subst h2; decide
  have hPne : P ≠ [] := predToken_ne_nil t.predicate
  have hPhead : P.head? = some '<' := predToken_head t.predicate
  have hline : ntLine t = A ++ ' ' :: (P ++ ' ' :: (O ++ ' ' :: ['.'])) := by
    show (A ++ (' ' :: P)) ++ (' ' :: O) ++ [' ', '.'] = _
    simp [List.append_assoc]
  have hlineLast : A ++ ' ' :: (P ++ ' ' :: (O ++ ' ' :: ['.'])) =
      (A ++ ' ' :: (P ++ ' ' :: (O ++ [' ']))) ++ ['.'] := by
    simp [List.append_assoc]
  have hstrip : pyStripWs (A ++ ' ' :: (P ++ ' ' :: (O ++ ' ' :: ['.']))) =
      A ++ ' ' :: (P ++ ' ' :: (O ++ ' ' :: ['.'])) := by
    refine pyStripWs_eq_self _ ?_ ?_
    · intro c hc
      rw [hA] at hc
      simp at hc
      subst hc
      decide
    · intro c hc
      rw [hlineLast, List.getLast?_concat] at hc
      injection hc with hc
      subst hc
      decide
  have hsplit : pySplitWs (A ++ ' ' :: (P ++ ' ' :: (O ++ ' ' :: ['.']))) =
      A :: P :: (pySplitWs O ++ [['.']]) := by
    rw [pySplitWs_sep, pySplitWs_sep, pySplitWs_sep,
      pySplitWs_token A hAne hAno, pySplitWs_token P hPne hp1,
      pySplitWs_token ['.'] (by simp) (by decide)]
    simp
  cases hOsplit : pySplitWs O with
  | nil =>
    exfalso
    rw [hOsplit] at ho2
    exact hone (by rw [← ho2]; rfl)
  | cons u us =>
    unfold parseTurtleLine
    rw [hline, hstrip]
    rw [if_neg (by simp), if_neg (by
      have hA0 : (A ++ ' ' :: (P ++ ' ' :: (O ++ ' ' :: ['.']))).head? =
          some '<' := by rw [hA]; rfl
      rw [Bool.or_eq_true]
      rintro (hx | hx)
      · have h5 := (singleton_isPrefixOf '#' _).mp hx
        rw [hA0] at h5
        exact absurd h5 (by decide)
      · have h5 := (singleton_isPrefixOf '@' _).mp hx
        rw [hA0] at h5
        exact absurd h5 (by decide))]
    rw [hsplit, hOsplit]
    rw [show (u :: us) ++ [['.']] = u :: (us ++ [['.']]) from rfl]
    rw [show (match (A :: P :: u :: (us ++ [['.']])) with
      | p0 :: p1 :: r0 :: rs =>
        if ("<".data.isPrefixOf p0 && "<".data.isPrefixOf p1) = true then
          [(pyStrip p0 angleChars, pyStrip p1 angleChars,
            pyStrip (pyRstrip (pyJoin [' '] (r0 :: rs)) spaceDotChars)
              angleQuoteChars)]
        else []
      | _ => []) =
      (if ("<".data.isPrefixOf A && "<".data.isPrefixOf P) = true then
          [(pyStrip A angleChars, pyStrip P angleChars,
            pyStrip (pyRstrip (pyJoin [' '] (u :: (us ++ [['.']])))
              spaceDotChars) angleQuoteChars)]
        else []) from rfl]
    rw [if_pos (by
      simp only [Bool.and_eq_true, singleton_isPrefixOf]
      exact ⟨by rw [hA]; rfl, hPhead⟩)]
    have hjoin : pyJoin [' '] (u :: (us ++ [['.']])) = (O ++ [' ']) ++ ['.'] := by
      rw [show u :: (us ++ [['.']]) = (u :: us) ++ [['.']] from rfl,
        pyJoin_append_last [' '] (u :: us) ['.'] (by simp)]
      rw [hOsplit] at ho2
      rw [ho2]
    have hrstrip : pyRstrip (pyJoin [' '] (u :: (us ++ [['.']])))
        spaceDotChars = O := by
      rw [hjoin, pyRstrip_append_mem _ _ _ (by decide),
        pyRstrip_append_mem _ _ _ (by decide), ho3]
    rw [hrstrip]
    have hsubj : pyStrip A angleChars = t.subject := by
      rw [hA]
      refine pyStrip_angle t.subject hsne ?_ ?_
      · intro c hc
        cases hsub : t.subject with
        | nil => exact absurd hsub hsne
        | cons a t2 =>
          rw [hsub] at hc
          injection hc with hc
          subst hc
          rw [hsub] at hs3
          simpa using hs3
      · intro c hc
        have : t.subject.getLastD ' ' = c := by
          rw [List.getLastD_eq_getLast?, hc]
          rfl
        rw [← this]
        exact hs4
    rw [hsubj]

theorem ntLine_no_nl (t : Triple) (h : wfTriple t) : '\n' ∉ ntLine t := by
  obtain ⟨hsne, hs2, hs3, hs4, hp1, hone, ho2, ho3⟩ := h
  intro hmem
  have hO : '\n' ∉ objToken t.object := by
    intro hc
    rw [← ho2] at hc
    rcases pyJoin_mem hc with h1 | ⟨x, hx, hcx⟩
    · simp at h1
    · have h3 := (splitWsAux_tokens (objToken t.object) [] (by simp) x hx).2
      have h2 := h3 '\n' hcx
      simp [isPySpace] at h2
  have hshape : ntLine t = ('<' :: (t.subject ++ ['>']))
      ++ (' ' :: predToken t.predicate) ++ (' ' :: objToken t.object)
      ++ [' ', '.'] := rfl
  rw [hshape] at hmem
  rcases List.mem_append.mp hmem with h1 | h1
  · rcases List.mem_append.mp h1 with h2 | h2
    · rcases List.mem_append.mp h2 with h3 | h3
      · rcases List.mem_cons.mp h3 with h4 | h4
        · exact absurd h4 (by decide)
        · rcases List.mem_append.mp h4 with h5 | h5
          · have h6 := hs2 '\n' h5
            simp [isPySpace] at h6
          · simp at h5
      · rcases List.mem_cons.mp h3 with h4 | h4
        · exact absurd h4 (by decide)
        · have h6 := hp1 '\n' h4
          simp [isPySpace] at h6
    · rcases List.mem_cons.mp h2 with h4 | h4
      · exact absurd h4 (by decide)
      · exact hO h4
  · simp at h1

theorem flatMap_parse_ntLine (l : List Triple) (h : ∀ t ∈ l, wfTriple t) :
    l.flatMap (fun t => parseTurtleLine (ntLine t)) =
      l.map fun t => (t.subject, pyStrip (predToken t.predicate) angleChars,
        pyStrip (objToken t.object) angleQuoteChars) := by
  induction l with
  | nil => rfl
  | cons t0 rest ih =>
    rw [List.flatMap_cons, parse_ntLine t0 (h t0 (by simp)),
      ih (fun t ht => h t (by simp [ht])), List.map_cons]
    rfl

/-- C1 (amended): serializing a well-formed triple list with
serialize_ntriples and parsing the result with parse_turtle_simple yields
exactly one triple per input triple in input order, recovering the
subject exactly, the predicate as its angle-stripped full-namespace
expansion, and the object with its enclosing angle or quote characters
stripped; literal content is never unescaped and prefixed predicates
such as rdf:type come back expanded, so the original (subject,
predicate, object) set is in general not recovered. -/
theorem roundTripRecover (ts : List Triple) (h : ∀ t ∈ ts, wfTriple t) :
    parse_turtle_simple (serialize_ntriples ts) =
      ts.map fun t => (t.subject, pyStrip (predToken t.predicate) angleChars,
        pyStrip (objToken t.object) angleQuoteChars) := by
  cases ts with
  | nil => rfl
  | cons t0 ts0 =>
    unfold serialize_ntriples parse_turtle_simple
    rw [splitOnChar_join '\n' _ (by simp) (by
      intro l hl
      obtain ⟨t, ht, rfl⟩ := List.mem_map.mp hl
      exact ntLine_no_nl t (h t ht))]
    rw [List.flatMap_map]
    exact flatMap_parse_ntLine _ h

set_option maxRecDepth 80000 in
/-- C1 witness: the amended round trip applied to a concrete builder
output (well-formed document id and file name, no chunks). -/
theorem roundTripRecoverWitness :
    parse_turtle_simple (serialize_ntriples
      (generate_rdf_graph "d".data "".data [] ⟨none, none, none⟩
        "f".data "T".data)) =
      (generate_rdf_graph "d".data "".data [] ⟨none, none, none⟩
        "f".data "T".data).map
        fun t => (t.subject, pyStrip (predToken t.predicate) angleChars,
          pyStrip (objToken t.object) angleQuoteChars) := by
  exact roundTripRecover _ (by decide)

set_option maxRecDepth 80000 in
/-- C1 counterexample: for the concrete builder output on document id
"d", the generated set holds exactly one triple with predicate rdf:type,
but the parsed serialization holds none — its predicates come back fully
expanded — so the parsed (subject, predicate, object) set cannot equal
the generated one, and no unescaping of literal objects can repair a
predicate difference. -/
theorem roundTripCounterexample :
    ((generate_rdf_graph "d".data "".data [] ⟨none, none, none⟩
        "f".data "T".data).countP
      (fun t => t.predicate == "rdf:type".data)) = 1 ∧
    ((parse_turtle_simple (serialize_ntriples
        (generate_rdf_graph "d".data "".data [] ⟨none, none, none⟩
          "f".data "T".data))).countP
      (fun tr => tr.2.1 == "rdf:type".data)) = 0 := by
  exact ⟨by decide, by decide⟩

end OntologyCdk
